import Mathlib

/-!
Shallow embedding of the limit order book implemented in
src/orderbook/orderbook.cpp.

Modelling conventions, stated once:

* C++ `double` prices are modelled as exact rationals (ℚ).  The only price
  arithmetic the code performs is comparison (map ordering, the amend
  tolerance test) and subtraction inside the tolerance test, so ℚ reflects
  the source faithfully on every value a test exercises.
* `uint64_t` quantities and level aggregates are modelled as naturals
  carried modulo 2^64 (`u64add`/`u64sub` mirror the wrap-around of the C++
  `+=`, `-=` and `a - b + c` expressions).  The operation counters
  (`total_orders`, `total_cancels`, `total_amends`) are modelled as
  unbounded naturals: the code only ever increments them by one and no
  other code reads them, so their 64-bit wrap (after 2^64 calls) is not
  observable in any scenario the spec describes.
* An `OrderNode *` returned by the `MemoryPool` is modelled as a slot id
  (`Nat`).  The pool's free list is a LIFO stack exactly as in the source
  (`free_list.back()` / `pop_back` / `push_back`); a fresh slot is a fresh
  id drawn from a counter, which models taking the next unused slot of the
  current block (the block structure itself only affects memory locality,
  not behaviour).  The node store `nodes` maps live slot ids to their
  contents; `deallocate` (destructor call) removes the entry.
* `std::list<OrderNode*>::iterator` erasure (`level.orders.erase(node->level_iterator)`)
  is modelled as erasure of the node id from the queue.  This is faithful
  because a given slot id occurs in at most one queue position at a time
  (part of the `WF` invariant proved below), so erasing by id removes
  exactly the element the stored iterator designates.
* `std::map<double, Level, cmp>` is modelled as an association list sorted
  strictly by `cmp` with pairwise distinct keys; `std::unordered_map` as a
  plain association list with distinct keys.
* The wall-clock read `high_resolution_clock::now()` inside `amend_order`
  is modelled by an explicit `nowTs` argument supplied by the environment.
-/

/-- 2^64, the modulus of C++ `uint64_t` arithmetic. -/
def u64Mod : Nat := 2 ^ 64

/-- C++ `uint64_t` addition (wraps modulo 2^64). -/
def u64add (a b : Nat) : Nat := (a + b) % u64Mod

/-- C++ `uint64_t` subtraction (wraps modulo 2^64); both arguments are
kept below `u64Mod` by the callers. -/
def u64sub (a b : Nat) : Nat := (a + (u64Mod - b % u64Mod)) % u64Mod

/-- C++ prices are `double`; modelled as exact rationals. -/
abbrev Price := ℚ

/-- The `Order` struct of the source. -/
structure Order where
  order_id : Nat
  is_buy : Bool
  price : Price
  quantity : Nat
  timestamp_ns : Nat
deriving Repr, DecidableEq

/-- The `PriceLevel` struct (snapshot entry) of the source. -/
structure PriceLevel where
  price : Price
  total_quantity : Nat
deriving Repr, DecidableEq

/-- The `OrderNode` struct: the payload stored in a pool slot.  The
`level_iterator` field is not stored: its role (O(1) erasure of this node
from its level's queue) is modelled by erasing the node's slot id, see the
header comment. -/
structure OrderNode where
  order : Order
deriving Repr, DecidableEq

/-- The `Level` struct: one price level with its FIFO queue.  The queue
holds pool slot ids standing for the C++ `OrderNode *` pointers. -/
structure Level where
  price : Price
  total_quantity : Nat
  orders : List Nat
deriving Repr, DecidableEq

/-- One side of the book: `std::map<double, Level, cmp>` modelled as an
association list sorted strictly by `cmp`. -/
abbrev Side := List (Price × Level)

/-- Comparator of `bid_levels`: `std::greater<double>`. -/
def bidLt (a b : Price) : Bool := decide (b < a)

/-- Comparator of `ask_levels`: `std::less<double>`. -/
def askLt (a b : Price) : Bool := decide (a < b)

/-- Map lookup by key (exact key equality; equivalent to comparator
equivalence because the comparators are strict total orders). -/
def findL : Side → Price → Option Level
  | [], _ => none
  | (k, L) :: t, p => if k = p then some L else findL t p

/-- Replace the value stored at an existing key. -/
def replaceL : Side → Price → Level → Side
  | [], _, _ => []
  | (k, L) :: t, p, L' => if k = p then (p, L') :: t else (k, L) :: replaceL t p L'

/-- `std::map::erase` of a key. -/
def eraseL : Side → Price → Side
  | [], _ => []
  | (k, L) :: t, p => if k = p then t else (k, L) :: eraseL t p

/-- Insertion of a fresh key at its sorted position (what
`std::map::operator[]` does when the key is absent). -/
def insertSorted (lt : Price → Price → Bool) (p : Price) (L : Level) : Side → Side
  | [] => [(p, L)]
  | (k, L') :: t =>
    if lt k p then (k, L') :: insertSorted lt p L t else (p, L) :: (k, L') :: t

/-- Association list lookup (for `nodes` and `order_lookup`). -/
def lookupA {α : Type} : List (Nat × α) → Nat → Option α
  | [], _ => none
  | (k, v) :: t, key => if k = key then some v else lookupA t key

/-- Association list insert-or-assign (`operator[] =` of `std::unordered_map`;
also used to register a fresh pool slot in the node store). -/
def insertA {α : Type} : List (Nat × α) → Nat → α → List (Nat × α)
  | [], key, v => [(key, v)]
  | (k, w) :: t, key, v => if k = key then (key, v) :: t else (k, w) :: insertA t key v

/-- Association list erase of a key. -/
def eraseA {α : Type} : List (Nat × α) → Nat → List (Nat × α)
  | [], _ => []
  | (k, w) :: t, key => if k = key then t else (k, w) :: eraseA t key

/-- Overwrite the value at a key when present (mutation of a node through
its pointer). -/
def setA {α : Type} : List (Nat × α) → Nat → α → List (Nat × α)
  | [], _, _ => []
  | (k, w) :: t, key, v => if k = key then (key, v) :: t else (k, w) :: setA t key v

/-- The `OrderBook` class state.  `nodes`, `alloc_count` and `free_list`
together model the `MemoryPool<OrderNode, 1024>` member (live slots, the
high-water mark of slots ever carved out of blocks, and the LIFO free
list). -/
structure OrderBook where
  nodes : List (Nat × OrderNode)
  alloc_count : Nat
  free_list : List Nat
  bid_levels : Side
  ask_levels : Side
  order_lookup : List (Nat × Nat)
  total_orders : Nat
  total_cancels : Nat
  total_amends : Nat
deriving Repr, DecidableEq

/-- The freshly constructed book (`OrderBook()`). -/
def emptyBook : OrderBook :=
  { nodes := [], alloc_count := 0, free_list := [], bid_levels := [],
    ask_levels := [], order_lookup := [], total_orders := 0,
    total_cancels := 0, total_amends := 0 }

/-- `MemoryPool::allocate`: pop the free list if non-empty, else carve the
next unused slot. -/
def allocate (b : OrderBook) : Nat × OrderBook :=
  match b.free_list with
  | nid :: rest => (nid, { b with free_list := rest })
  | [] => (b.alloc_count, { b with alloc_count := b.alloc_count + 1 })

/-- Placeholder node used to model dereferencing an `OrderNode *`; the
`WF` invariant guarantees the lookup that feeds `Option.getD` always
succeeds, so this value is never produced on reachable states. -/
def nullNode : OrderNode := ⟨⟨0, true, 0, 0, 0⟩⟩

/-- `OrderBook::add_to_side` (template over the side's comparator):
`side[price]` (creating an empty level when absent), append the node at
the queue tail, add its quantity to the aggregate. -/
def add_to_side (lt : Price → Price → Bool) (side : Side) (nid : Nat)
    (nd : OrderNode) : Side :=
  let p := nd.order.price
  match findL side p with
  | some L =>
    replaceL side p
      { price := p, total_quantity := u64add L.total_quantity nd.order.quantity,
        orders := L.orders ++ [nid] }
  | none =>
    insertSorted lt p
      { price := p, total_quantity := u64add 0 nd.order.quantity,
        orders := [nid] } side

/-- `OrderBook::remove_from_side`: erase the node from its level's queue,
subtract its quantity, drop the level if its queue became empty. -/
def remove_from_side (side : Side) (nid : Nat) (nd : OrderNode) : Side :=
  let p := nd.order.price
  match findL side p with
  | none => side
  | some L =>
    let L' : Level :=
      { price := L.price, total_quantity := u64sub L.total_quantity nd.order.quantity,
        orders := L.orders.erase nid }
    if L'.orders = [] then eraseL side p else replaceL side p L'

/-- `OrderBook::update_quantity_in_place`: adjust the aggregate of the
level holding the node and set the node's quantity; returns the updated
side together with the (possibly) mutated node. -/
def update_quantity_in_place (side : Side) (nd : OrderNode) (nq : Nat) :
    Side × OrderNode :=
  match findL side nd.order.price with
  | none => (side, nd)
  | some L =>
    (replaceL side nd.order.price
      { price := L.price,
        total_quantity := u64add (u64sub L.total_quantity nd.order.quantity) nq,
        orders := L.orders },
     { order := { nd.order with quantity := nq } })

/-- `OrderBook::add_order`. -/
def add_order (b : OrderBook) (order : Order) : OrderBook :=
  let anb := allocate b
  let nid := anb.1
  let b1 := anb.2
  let node : OrderNode := ⟨order⟩
  let b2 := { b1 with nodes := insertA b1.nodes nid node,
                      order_lookup := insertA b1.order_lookup order.order_id nid }
  let b3 :=
    if order.is_buy then
      { b2 with bid_levels := add_to_side bidLt b2.bid_levels nid node }
    else
      { b2 with ask_levels := add_to_side askLt b2.ask_levels nid node }
  { b3 with total_orders := b3.total_orders + 1 }

/-- `OrderBook::cancel_order`. -/
def cancel_order (b : OrderBook) (oid : Nat) : Bool × OrderBook :=
  match lookupA b.order_lookup oid with
  | none => (false, b)
  | some nid =>
    let node := (lookupA b.nodes nid).getD nullNode
    let b1 :=
      if node.order.is_buy then
        { b with bid_levels := remove_from_side b.bid_levels nid node }
      else
        { b with ask_levels := remove_from_side b.ask_levels nid node }
    let b2 := { b1 with order_lookup := eraseA b1.order_lookup oid,
                        nodes := eraseA b1.nodes nid,
                        free_list := nid :: b1.free_list }
    (true, { b2 with total_cancels := b2.total_cancels + 1 })

/-- The absolute tolerance `1e-9` of `amend_order`'s price comparison. -/
def amendTol : ℚ := 1 / 1000000000

/-- `OrderBook::amend_order`; `nowTs` models the
`high_resolution_clock::now()` reading taken on the price-change path. -/
def amend_order (b : OrderBook) (oid : Nat) (new_price : Price)
    (new_quantity : Nat) (nowTs : Nat) : Bool × OrderBook :=
  match lookupA b.order_lookup oid with
  | none => (false, b)
  | some nid =>
    let node := (lookupA b.nodes nid).getD nullNode
    if |node.order.price - new_price| > amendTol then
      let new_order : Order :=
        { node.order with price := new_price, quantity := new_quantity,
                          timestamp_ns := nowTs }
      let b1 := (cancel_order b oid).2
      let b2 := add_order b1 new_order
      (true, { b2 with total_amends := b2.total_amends + 1 })
    else
      if node.order.is_buy then
        let sn := update_quantity_in_place b.bid_levels node new_quantity
        (true, { b with bid_levels := sn.1, nodes := setA b.nodes nid sn.2,
                        total_amends := b.total_amends + 1 })
      else
        let sn := update_quantity_in_place b.ask_levels node new_quantity
        (true, { b with ask_levels := sn.1, nodes := setA b.nodes nid sn.2,
                        total_amends := b.total_amends + 1 })

/-- `OrderBook::get_snapshot`: up to `depth` best levels per side, in the
side maps' iteration order. -/
def get_snapshot (b : OrderBook) (depth : Nat) :
    List PriceLevel × List PriceLevel :=
  ((b.bid_levels.take depth).map fun e => ⟨e.1, e.2.total_quantity⟩,
   (b.ask_levels.take depth).map fun e => ⟨e.1, e.2.total_quantity⟩)

/-- `std::numeric_limits<double>::max()` as an exact rational:
(2 - 2^-52) * 2^1023. -/
def dblMax : Price := ((2:ℚ) ^ 53 - 1) * 2 ^ 971

/-- `OrderBook::get_best_prices`: sentinel `0.0` for an empty bid side,
`DBL_MAX` for an empty ask side, else the first key of the side map. -/
def get_best_prices (b : OrderBook) : Price × Price :=
  (match b.bid_levels with
   | [] => 0
   | (p, _) :: _ => p,
   match b.ask_levels with
   | [] => dblMax
   | (p, _) :: _ => p)

/-- One call of the public mutating API. -/
inductive BookOp where
  | add (o : Order)
  | cancel (oid : Nat)
  | amend (oid : Nat) (new_price : Price) (new_quantity : Nat) (nowTs : Nat)
deriving Repr, DecidableEq

/-- The `uint64_t` typing of quantities at the C++ API boundary. -/
def opWF : BookOp → Prop
  | .add o => o.quantity < u64Mod
  | .cancel _ => True
  | .amend _ _ q _ => q < u64Mod

/-- Apply one API call to the book (mutating calls only; the Bool results
are observed through `cancel_order`/`amend_order` directly). -/
def applyOp (b : OrderBook) : BookOp → OrderBook
  | .add o => add_order b o
  | .cancel oid => (cancel_order b oid).2
  | .amend oid p q ts => (amend_order b oid p q ts).2

/-- States reachable from the fresh book by well-typed API calls. -/
inductive Reachable : OrderBook → Prop
  | empty : Reachable emptyBook
  | step {b : OrderBook} {op : BookOp} : Reachable b → opWF op →
      Reachable (applyOp b op)

/-! ## The well-formedness invariant of reachable book states -/

/-- Quantity currently stored in a pool slot (0 for a dead slot; only ever
read for live slots). -/
def qtyOf (nodes : List (Nat × OrderNode)) (nid : Nat) : Nat :=
  ((lookupA nodes nid).map fun nd => nd.order.quantity).getD 0

/-- Well-formedness of one price level of side `isBuy`, keyed under `p`,
relative to the node store: the stored price matches the key, the queue is
non-empty, the aggregate is the u64 sum of the queued quantities, and
every queued slot id is live with matching side and price. -/
def levelWF (nodes : List (Nat × OrderNode)) (isBuy : Bool) (p : Price)
    (L : Level) : Prop :=
  L.price = p ∧ L.orders ≠ [] ∧
  L.total_quantity = (L.orders.map (qtyOf nodes)).sum % u64Mod ∧
  ∀ nid ∈ L.orders, ∃ nd, lookupA nodes nid = some nd ∧
    nd.order.is_buy = isBuy ∧ nd.order.price = p

/-- Well-formedness of a whole side map: keys strictly sorted by the
side's comparator, and every level well-formed. -/
def sideWF (nodes : List (Nat × OrderNode)) (isBuy : Bool)
    (lt : Price → Price → Bool) (side : Side) : Prop :=
  side.Pairwise (fun x y => lt x.1 y.1 = true) ∧
  ∀ e ∈ side, levelWF nodes isBuy e.1 e.2

/-- All slot ids queued anywhere on a side, in iteration order. -/
def queuedIds : Side → List Nat
  | [] => []
  | e :: t => e.2.orders ++ queuedIds t

/-- The global invariant of the order book, proved below to hold in every
reachable state. -/
structure WF (b : OrderBook) : Prop where
  bidWF : sideWF b.nodes true bidLt b.bid_levels
  askWF : sideWF b.nodes false askLt b.ask_levels
  queuedNodup : (queuedIds b.bid_levels ++ queuedIds b.ask_levels).Nodup
  nodesKeysNodup : (b.nodes.map Prod.fst).Nodup
  nodesBound : ∀ e ∈ b.nodes, e.1 < b.alloc_count ∧ e.2.order.quantity < u64Mod
  freeNodup : b.free_list.Nodup
  freeFresh : ∀ nid ∈ b.free_list, nid < b.alloc_count ∧ lookupA b.nodes nid = none
  idxKeysNodup : (b.order_lookup.map Prod.fst).Nodup
  idxValsNodup : (b.order_lookup.map Prod.snd).Nodup
  idxLive : ∀ e ∈ b.order_lookup, ∃ nd, lookupA b.nodes e.2 = some nd ∧
    nd.order.order_id = e.1
  nodesHome : ∀ e ∈ b.nodes, ∃ L,
    findL (if e.2.order.is_buy then b.bid_levels else b.ask_levels)
      e.2.order.price = some L ∧ e.1 ∈ L.orders

/-! ## Association list lemmas -/

theorem lookupA_insertA_self {α : Type} (l : List (Nat × α)) (k : Nat) (v : α) :
    lookupA (insertA l k v) k = some v := by
  induction l with
  | nil => simp [insertA, lookupA]
  | cons e t ih =>
    obtain ⟨k', w⟩ := e
    by_cases h : k' = k <;> simp [insertA, lookupA, h, ih]

theorem lookupA_insertA_ne {α : Type} (l : List (Nat × α)) (k k' : Nat) (v : α)
    (h : k' ≠ k) : lookupA (insertA l k v) k' = lookupA l k' := by
  have hk : k ≠ k' := Ne.symm h
  induction l with
  | nil => simp [insertA, lookupA, hk]
  | cons e t ih =>
    obtain ⟨k0, w⟩ := e
    by_cases h0 : k0 = k
    · subst h0
      simp [insertA, lookupA, hk]
    · simp only [insertA, if_neg h0, lookupA]
      by_cases h1 : k0 = k' <;> simp [h1, ih]

theorem lookupA_eraseA_self {α : Type} (l : List (Nat × α)) (k : Nat)
    (h : (l.map Prod.fst).Nodup) : lookupA (eraseA l k) k = none := by
  induction l with
  | nil => simp [eraseA, lookupA]
  | cons e t ih =>
    obtain ⟨k0, w⟩ := e
    simp only [List.map_cons, List.nodup_cons] at h
    by_cases h0 : k0 = k
    · subst h0
      simp only [eraseA, if_pos rfl]
      cases hl : lookupA t k0 with
      | none => exact hl
      | some v =>
        exfalso
        have : (k0, v) ∈ t := by
          clear ih h
          induction t with
          | nil => simp [lookupA] at hl
          | cons e' t' ih' =>
            obtain ⟨k1, w1⟩ := e'
            by_cases h1 : k1 = k0
            · subst h1; simp [lookupA] at hl; simp [hl]
            · simp only [lookupA, if_neg h1] at hl
              exact List.mem_cons_of_mem _ (ih' hl)
        exact h.1 (List.mem_map_of_mem Prod.fst this)
    · simp only [eraseA, if_neg h0, lookupA, if_neg h0]
      exact ih h.2

theorem lookupA_eraseA_ne {α : Type} (l : List (Nat × α)) (k k' : Nat)
    (h : k' ≠ k) : lookupA (eraseA l k) k' = lookupA l k' := by
  have hk : k ≠ k' := Ne.symm h
  induction l with
  | nil => simp [eraseA, lookupA]
  | cons e t ih =>
    obtain ⟨k0, w⟩ := e
    by_cases h0 : k0 = k
    · subst h0
      simp [eraseA, lookupA, hk]
    · simp only [eraseA, if_neg h0, lookupA]
      by_cases h1 : k0 = k' <;> simp [h1, ih]

theorem lookupA_setA_ne {α : Type} (l : List (Nat × α)) (k k' : Nat) (v : α)
    (h : k' ≠ k) : lookupA (setA l k v) k' = lookupA l k' := by
  have hk : k ≠ k' := Ne.symm h
  induction l with
  | nil => simp [setA, lookupA]
  | cons e t ih =>
    obtain ⟨k0, w⟩ := e
    by_cases h0 : k0 = k
    · subst h0
      simp [setA, lookupA, hk]
    · simp only [setA, if_neg h0, lookupA]
      by_cases h1 : k0 = k' <;> simp [h1, ih]

theorem lookupA_setA_self {α : Type} (l : List (Nat × α)) (k : Nat) (v : α)
    (h : lookupA l k ≠ none) : lookupA (setA l k v) k = some v := by
  induction l with
  | nil => simp [lookupA] at h
  | cons e t ih =>
    obtain ⟨k0, w⟩ := e
    by_cases h0 : k0 = k
    · subst h0; simp [setA, lookupA]
    · simp only [lookupA, if_neg h0] at h
      simp only [setA, if_neg h0, lookupA, if_neg h0]
      exact ih h

theorem lookupA_none_of_not_mem {α : Type} (l : List (Nat × α)) (k : Nat)
    (h : k ∉ l.map Prod.fst) : lookupA l k = none := by
  induction l with
  | nil => rfl
  | cons e t ih =>
    obtain ⟨k0, w⟩ := e
    simp only [List.map_cons, List.mem_cons] at h
    push_neg at h
    simp [lookupA, Ne.symm h.1, ih h.2]

theorem mem_of_lookupA_some {α : Type} (l : List (Nat × α)) (k : Nat) (v : α)
    (h : lookupA l k = some v) : (k, v) ∈ l := by
  induction l with
  | nil => simp [lookupA] at h
  | cons e t ih =>
    obtain ⟨k0, w⟩ := e
    by_cases h0 : k0 = k
    · subst h0; simp [lookupA] at h; simp [h]
    · simp only [lookupA, if_neg h0] at h
      exact List.mem_cons_of_mem _ (ih h)

theorem lookupA_isSome_of_mem_keys {α : Type} (l : List (Nat × α)) (k : Nat)
    (h : k ∈ l.map Prod.fst) : lookupA l k ≠ none := by
  induction l with
  | nil => simp at h
  | cons e t ih =>
    obtain ⟨k0, w⟩ := e
    by_cases h0 : k0 = k
    · subst h0; simp [lookupA]
    · simp only [List.map_cons, List.mem_cons] at h
      rcases h with h | h
      · exact absurd h.symm h0
      · simp only [lookupA, if_neg h0]
        exact ih h

theorem mem_insertA {α : Type} (l : List (Nat × α)) (k : Nat) (v : α) (a : Nat × α)
    (h : a ∈ insertA l k v) : a = (k, v) ∨ a ∈ l := by
  induction l with
  | nil => simp [insertA] at h; simp [h]
  | cons e t ih =>
    obtain ⟨k0, w⟩ := e
    by_cases h0 : k0 = k
    · subst h0
      simp [insertA] at h
      rcases h with h1 | h1
      · exact Or.inl h1
      · exact Or.inr (List.mem_cons_of_mem _ h1)
    · simp only [insertA, if_neg h0, List.mem_cons] at h
      rcases h with h | h
      · exact Or.inr (by simp [h])
      · rcases ih h with h' | h'
        · exact Or.inl h'
        · exact Or.inr (List.mem_cons_of_mem _ h')

theorem mem_eraseA {α : Type} (l : List (Nat × α)) (k : Nat) (a : Nat × α)
    (h : a ∈ eraseA l k) : a ∈ l := by
  induction l with
  | nil => simp [eraseA] at h
  | cons e t ih =>
    obtain ⟨k0, w⟩ := e
    by_cases h0 : k0 = k
    · subst h0
      simp only [eraseA, if_pos rfl] at h
      exact List.mem_cons_of_mem _ h
    · simp only [eraseA, if_neg h0, List.mem_cons] at h
      rcases h with h | h
      · simp [h]
      · exact List.mem_cons_of_mem _ (ih h)

theorem mem_setA {α : Type} (l : List (Nat × α)) (k : Nat) (v : α) (a : Nat × α)
    (h : a ∈ setA l k v) : a = (k, v) ∨ a ∈ l := by
  induction l with
  | nil => simp [setA] at h
  | cons e t ih =>
    obtain ⟨k0, w⟩ := e
    by_cases h0 : k0 = k
    · subst h0
      simp [setA] at h
      rcases h with h1 | h1
      · exact Or.inl h1
      · exact Or.inr (List.mem_cons_of_mem _ h1)
    · simp only [setA, if_neg h0, List.mem_cons] at h
      rcases h with h | h
      · exact Or.inr (by simp [h])
      · rcases ih h with h' | h'
        · exact Or.inl h'
        · exact Or.inr (List.mem_cons_of_mem _ h')

/-! ## Side map lemmas -/

theorem bidLt_irrefl (a : Price) : bidLt a a = false := by simp [bidLt]

theorem askLt_irrefl (a : Price) : askLt a a = false := by simp [askLt]

theorem bidLt_trans {a b c : Price} (h1 : bidLt a b = true) (h2 : bidLt b c = true) :
    bidLt a c = true := by
  simp only [bidLt, decide_eq_true_eq] at *
  exact h2.trans h1

theorem askLt_trans {a b c : Price} (h1 : askLt a b = true) (h2 : askLt b c = true) :
    askLt a c = true := by
  simp only [askLt, decide_eq_true_eq] at *
  exact h1.trans h2

theorem bidLt_total {a b : Price} (h : a ≠ b) : bidLt a b = true ∨ bidLt b a = true := by
  simp only [bidLt, decide_eq_true_eq]
  rcases lt_or_gt_of_ne h with h1 | h1
  · exact Or.inr h1
  · exact Or.inl h1

theorem askLt_total {a b : Price} (h : a ≠ b) : askLt a b = true ∨ askLt b a = true := by
  simp only [askLt, decide_eq_true_eq]
  rcases lt_or_gt_of_ne h with h1 | h1
  · exact Or.inl h1
  · exact Or.inr h1

theorem findL_none_of_not_mem (s : Side) (p : Price)
    (h : p ∉ s.map Prod.fst) : findL s p = none := by
  induction s with
  | nil => rfl
  | cons e t ih =>
    obtain ⟨k, L⟩ := e
    simp only [List.map_cons, List.mem_cons] at h
    push_neg at h
    simp [findL, Ne.symm h.1, ih h.2]

theorem not_mem_of_findL_none (s : Side) (p : Price)
    (h : findL s p = none) : p ∉ s.map Prod.fst := by
  induction s with
  | nil => simp
  | cons e t ih =>
    obtain ⟨k, L⟩ := e
    by_cases h0 : k = p
    · subst h0; simp [findL] at h
    · simp only [findL, if_neg h0] at h
      simp only [List.map_cons, List.mem_cons]
      push_neg
      exact ⟨Ne.symm h0, ih h⟩

theorem mem_of_findL_some (s : Side) (p : Price) (L : Level)
    (h : findL s p = some L) : (p, L) ∈ s := by
  induction s with
  | nil => simp [findL] at h
  | cons e t ih =>
    obtain ⟨k, L0⟩ := e
    by_cases h0 : k = p
    · subst h0; simp [findL] at h; simp [h]
    · simp only [findL, if_neg h0] at h
      exact List.mem_cons_of_mem _ (ih h)

/-- Positional decomposition of a successful map lookup, together with the
effect of `eraseL` and `replaceL` at the found key. -/
theorem findL_decomp (s : Side) (p : Price) (L : Level)
    (h : findL s p = some L) :
    ∃ s1 s2, s = s1 ++ (p, L) :: s2 ∧ p ∉ s1.map Prod.fst ∧
      eraseL s p = s1 ++ s2 ∧ ∀ L', replaceL s p L' = s1 ++ (p, L') :: s2 := by
  induction s with
  | nil => simp [findL] at h
  | cons e t ih =>
    obtain ⟨k, L0⟩ := e
    by_cases h0 : k = p
    · subst h0
      simp [findL] at h
      subst h
      exact ⟨[], t, by simp [eraseL, replaceL]⟩
    · simp only [findL, if_neg h0] at h
      obtain ⟨s1, s2, hs, hk, he, hr⟩ := ih h
      refine ⟨(k, L0) :: s1, s2, by simp [hs], ?_, ?_, ?_⟩
      · simp only [List.map_cons, List.mem_cons]
        push_neg
        exact ⟨Ne.symm h0, hk⟩
      · simp [eraseL, h0, he]
      · intro L'
        simp [replaceL, h0, hr L']

/-- Positional decomposition of a sorted insertion: the new pair lands
between the keys below it and the rest, and every key it passes satisfies
the comparator. -/
theorem insertSorted_decomp (lt : Price → Price → Bool) (p : Price) (L : Level)
    (s : Side) :
    ∃ s1 s2, s = s1 ++ s2 ∧ insertSorted lt p L s = s1 ++ (p, L) :: s2 ∧
      (∀ k ∈ s1.map Prod.fst, lt k p = true) ∧
      (s2 = [] ∨ ∃ e2 s2', s2 = e2 :: s2' ∧ lt e2.1 p = false) := by
  induction s with
  | nil => exact ⟨[], [], by simp [insertSorted]⟩
  | cons e t ih =>
    obtain ⟨k, L0⟩ := e
    by_cases h0 : lt k p = true
    · obtain ⟨s1, s2, hs, hi, hks, hh⟩ := ih
      refine ⟨(k, L0) :: s1, s2, by simp [hs], ?_, ?_, hh⟩
      · simp [insertSorted, h0, hi]
      · intro k' hk'
        simp only [List.map_cons, List.mem_cons] at hk'
        rcases hk' with hk' | hk'
        · subst hk'; exact h0
        · exact hks k' hk'
    · refine ⟨[], (k, L0) :: t, by simp, ?_, by simp, ?_⟩
      · simp [insertSorted, h0]
      · exact Or.inr ⟨(k, L0), t, rfl, by simpa using h0⟩

/-- `queuedIds` distributes over append. -/
theorem queuedIds_append (s1 s2 : Side) :
    queuedIds (s1 ++ s2) = queuedIds s1 ++ queuedIds s2 := by
  induction s1 with
  | nil => rfl
  | cons e t ih => simp [queuedIds, ih]

theorem mem_queuedIds {s : Side} {nid : Nat} :
    nid ∈ queuedIds s ↔ ∃ e ∈ s, nid ∈ e.2.orders := by
  induction s with
  | nil => simp [queuedIds]
  | cons e t ih =>
    simp only [queuedIds, List.mem_append, ih, List.mem_cons]
    constructor
    · rintro (h | ⟨e', he', hn⟩)
      · exact ⟨e, Or.inl rfl, h⟩
      · exact ⟨e', Or.inr he', hn⟩
    · rintro ⟨e', he' | he', hn⟩
      · subst he'; exact Or.inl hn
      · exact Or.inr ⟨e', he', hn⟩

/-- Sum of mapped values over a list containing `a`, split off at `a`. -/
theorem sum_map_mem_split {α : Type} [DecidableEq α] (l : List α) (a : α)
    (f : α → Nat) (h : a ∈ l) :
    (l.map f).sum = f a + ((l.erase a).map f).sum := by
  have hp : l.Perm (a :: l.erase a) := List.perm_cons_erase h
  have := (hp.map f).sum_eq
  simpa using this

/-- Strictly sorted keys (for an irreflexive comparator) are distinct. -/
theorem nodup_keys_of_pairwise (lt : Price → Price → Bool)
    (hirr : ∀ a, lt a a = false) (s : Side)
    (h : s.Pairwise (fun x y => lt x.1 y.1 = true)) :
    (s.map Prod.fst).Nodup := by
  rw [List.nodup_iff_sublist]
  intro a ha
  have hp : (s.map Prod.fst).Pairwise (fun x y => lt x y = true) :=
    List.pairwise_map.mpr h
  have := hp.sublist ha
  have h2 := List.pairwise_cons.mp this
  have := h2.1 a (by simp)
  rw [hirr a] at this
  exact Bool.false_ne_true this

theorem findL_append (s1 s2 : Side) (p : Price) (h : p ∉ s1.map Prod.fst) :
    findL (s1 ++ s2) p = findL s2 p := by
  induction s1 with
  | nil => rfl
  | cons e t ih =>
    obtain ⟨k, L⟩ := e
    simp only [List.map_cons, List.mem_cons] at h
    push_neg at h
    simp [findL, Ne.symm h.1, ih h.2]

theorem eraseL_append_not_mem (s1 s2 : Side) (p : Price) (e : Price × Level)
    (hp : e.1 = p) (h : p ∉ s1.map Prod.fst) :
    eraseL (s1 ++ e :: s2) p = s1 ++ s2 := by
  induction s1 with
  | nil => obtain ⟨k, L⟩ := e; subst hp; simp [eraseL]
  | cons e0 t ih =>
    obtain ⟨k, L⟩ := e0
    simp only [List.map_cons, List.mem_cons] at h
    push_neg at h
    simp [eraseL, Ne.symm h.1, ih h.2]

theorem findL_replaceL_self (s : Side) (p : Price) (L L' : Level)
    (h : findL s p = some L) : findL (replaceL s p L') p = some L' := by
  obtain ⟨s1, s2, _, hk, _, hr⟩ := findL_decomp s p L h
  rw [hr L', findL_append _ _ _ hk]
  simp [findL]

theorem findL_replaceL_ne (s : Side) (p q : Price) (L' : Level) (h : q ≠ p) :
    findL (replaceL s p L') q = findL s q := by
  induction s with
  | nil => rfl
  | cons e t ih =>
    obtain ⟨k, L0⟩ := e
    by_cases h0 : k = p
    · subst h0
      simp [replaceL, findL, Ne.symm h]
    · simp only [replaceL, if_neg h0, findL]
      by_cases h1 : k = q <;> simp [h1, ih]

theorem findL_eraseL_ne (s : Side) (p q : Price) (h : q ≠ p) :
    findL (eraseL s p) q = findL s q := by
  induction s with
  | nil => rfl
  | cons e t ih =>
    obtain ⟨k, L0⟩ := e
    by_cases h0 : k = p
    · subst h0
      simp [eraseL, findL, Ne.symm h]
    · simp only [eraseL, if_neg h0, findL]
      by_cases h1 : k = q <;> simp [h1, ih]

theorem findL_eraseL_self (s : Side) (p : Price) (L : Level)
    (h : findL s p = some L) (hnod : (s.map Prod.fst).Nodup) :
    findL (eraseL s p) p = none := by
  obtain ⟨s1, s2, hs, hk, he, _⟩ := findL_decomp s p L h
  rw [he, findL_append _ _ _ hk]
  apply findL_none_of_not_mem
  subst hs
  simp only [List.map_append, List.map_cons] at hnod
  have := (List.nodup_append.mp hnod).2.1
  exact (List.nodup_cons.mp this).1

theorem replaceL_cancel (s : Side) (p : Price) (L : Level)
    (h : findL s p = some L) : replaceL s p L = s := by
  obtain ⟨s1, s2, hs, _, _, hr⟩ := findL_decomp s p L h
  rw [hr L, hs]

theorem replaceL_replaceL (s : Side) (p : Price) (L1 L2 : Level) :
    replaceL (replaceL s p L1) p L2 = replaceL s p L2 := by
  induction s with
  | nil => rfl
  | cons e t ih =>
    obtain ⟨k, L0⟩ := e
    by_cases h0 : k = p
    · subst h0; simp [replaceL]
    · simp [replaceL, h0, ih]

theorem mem_replaceL (s : Side) (p : Price) (L' : Level) (a : Price × Level)
    (h : a ∈ replaceL s p L') : a = (p, L') ∨ a ∈ s := by
  induction s with
  | nil => simp [replaceL] at h
  | cons e t ih =>
    obtain ⟨k, L0⟩ := e
    by_cases h0 : k = p
    · subst h0
      simp [replaceL] at h
      rcases h with h1 | h1
      · exact Or.inl h1
      · exact Or.inr (List.mem_cons_of_mem _ h1)
    · simp only [replaceL, if_neg h0, List.mem_cons] at h
      rcases h with h1 | h1
      · exact Or.inr (by simp [h1])
      · rcases ih h1 with h' | h'
        · exact Or.inl h'
        · exact Or.inr (List.mem_cons_of_mem _ h')

theorem keys_replaceL (s : Side) (p : Price) (L' : Level) :
    (replaceL s p L').map Prod.fst = s.map Prod.fst := by
  induction s with
  | nil => rfl
  | cons e t ih =>
    obtain ⟨k, L0⟩ := e
    by_cases h0 : k = p
    · subst h0; simp [replaceL]
    · simp [replaceL, h0, ih]

theorem pairwise_replaceL (lt : Price → Price → Bool) (s : Side) (p : Price)
    (L' : Level) (h : s.Pairwise fun x y => lt x.1 y.1 = true) :
    (replaceL s p L').Pairwise fun x y => lt x.1 y.1 = true := by
  have h1 : (s.map Prod.fst).Pairwise (fun x y => lt x y = true) :=
    List.pairwise_map.mpr h
  rw [← keys_replaceL s p L'] at h1
  exact List.pairwise_map.mp h1

theorem eraseL_sublist (s : Side) (p : Price) : (eraseL s p).Sublist s := by
  induction s with
  | nil => simp [eraseL]
  | cons e t ih =>
    obtain ⟨k, L0⟩ := e
    by_cases h0 : k = p
    · subst h0
      simp only [eraseL, if_pos rfl]
      exact List.sublist_cons_self _ _
    · simp only [eraseL, if_neg h0]
      exact ih.cons₂ _

theorem pairwise_eraseL (lt : Price → Price → Bool) (s : Side) (p : Price)
    (h : s.Pairwise fun x y => lt x.1 y.1 = true) :
    (eraseL s p).Pairwise fun x y => lt x.1 y.1 = true :=
  h.sublist (eraseL_sublist s p)

theorem mem_insertSorted (lt : Price → Price → Bool) (s : Side) (p : Price)
    (L : Level) (a : Price × Level) (h : a ∈ insertSorted lt p L s) :
    a = (p, L) ∨ a ∈ s := by
  obtain ⟨s1, s2, hs, hi, _, _⟩ := insertSorted_decomp lt p L s
  rw [hi] at h
  subst hs
  simp only [List.mem_append, List.mem_cons] at h ⊢
  tauto

theorem pairwise_insertSorted (lt : Price → Price → Bool)
    (htrans : ∀ {a b c}, lt a b = true → lt b c = true → lt a c = true)
    (htot : ∀ {a b}, a ≠ b → lt a b = true ∨ lt b a = true)
    (s : Side) (p : Price) (L : Level) (hmem : p ∉ s.map Prod.fst)
    (h : s.Pairwise fun x y => lt x.1 y.1 = true) :
    (insertSorted lt p L s).Pairwise fun x y => lt x.1 y.1 = true := by
  obtain ⟨s1, s2, hs, hi, hks, hh⟩ := insertSorted_decomp lt p L s
  subst hs
  rw [hi]
  rw [List.pairwise_append] at h ⊢
  obtain ⟨hp1, hp2, hcross⟩ := h
  have hpnew : ∀ y ∈ s2, lt p y.1 = true := by
    rcases hh with hh | ⟨e2, s2', hs2, he2⟩
    · subst hh; intro y hy; simp at hy
    · subst hs2
      have hne : p ≠ e2.1 := by
        intro hcon
        apply hmem
        rw [hcon]
        simp
      have hlt : lt p e2.1 = true := by
        rcases htot hne with h' | h'
        · exact h'
        · rw [he2] at h'; exact absurd h' (by simp)
      intro y hy
      rcases List.mem_cons.mp hy with hy | hy
      · subst hy; exact hlt
      · exact htrans hlt ((List.pairwise_cons.mp hp2).1 y hy)
  refine ⟨hp1, ?_, ?_⟩
  · rw [List.pairwise_cons]
    exact ⟨hpnew, hp2⟩
  · intro x hx y hy
    rcases List.mem_cons.mp hy with hy | hy
    · subst hy
      exact hks x.1 (List.mem_map_of_mem Prod.fst hx)
    · exact hcross x hx y hy

theorem findL_insertSorted_self (lt : Price → Price → Bool)
    (hirr : ∀ a, lt a a = false) (s : Side) (p : Price) (L : Level) :
    findL (insertSorted lt p L s) p = some L := by
  obtain ⟨s1, s2, _, hi, hks, _⟩ := insertSorted_decomp lt p L s
  rw [hi, findL_append]
  · simp [findL]
  · intro hc
    have := hks p hc
    rw [hirr p] at this
    exact Bool.false_ne_true this

theorem findL_insertSorted_ne (lt : Price → Price → Bool) (s : Side)
    (p q : Price) (L : Level) (h : q ≠ p) :
    findL (insertSorted lt p L s) q = findL s q := by
  induction s with
  | nil => simp [insertSorted, findL, Ne.symm h]
  | cons e t ih =>
    obtain ⟨k, L0⟩ := e
    by_cases h0 : lt k p = true
    · simp only [insertSorted, if_pos h0, findL]
      by_cases h1 : k = q <;> simp [h1, ih]
    · simp only [insertSorted, if_neg h0, findL]
      simp [Ne.symm h]

theorem eraseL_insertSorted (lt : Price → Price → Bool) (s : Side) (p : Price)
    (L : Level) (hmem : p ∉ s.map Prod.fst) :
    eraseL (insertSorted lt p L s) p = s := by
  obtain ⟨s1, s2, hs, hi, _, _⟩ := insertSorted_decomp lt p L s
  rw [hi, eraseL_append_not_mem _ _ _ _ rfl, ← hs]
  intro hc
  apply hmem
  subst hs
  simp only [List.map_append, List.mem_append]
  exact Or.inl hc

/-! ## u64 arithmetic lemmas -/

theorem u64Mod_pos : 0 < u64Mod := by
  simp [u64Mod]

theorem u64add_mod_left (S q : Nat) : u64add (S % u64Mod) q = (S + q) % u64Mod := by
  unfold u64add
  exact Nat.mod_add_mod S u64Mod q

theorem u64sub_mod_left (S q : Nat) (h1 : q ≤ S) (h2 : q < u64Mod) :
    u64sub (S % u64Mod) q = (S - q) % u64Mod := by
  unfold u64sub
  rw [Nat.mod_eq_of_lt h2, Nat.mod_add_mod]
  have hq : S + (u64Mod - q) = (S - q) + u64Mod := by omega
  rw [hq, Nat.add_mod_right]

theorem u64sub_u64add (agg q : Nat) (h1 : agg < u64Mod) (h2 : q < u64Mod) :
    u64sub (u64add agg q) q = agg := by
  unfold u64add u64sub
  rw [Nat.mod_eq_of_lt h2, Nat.mod_add_mod]
  have hq : agg + q + (u64Mod - q) = agg + u64Mod := by omega
  rw [hq, Nat.add_mod_right, Nat.mod_eq_of_lt h1]

/-! ## Store-change congruence -/

theorem getD_of_lookupA_some {α : Type} [Inhabited α] (l : List (Nat × α))
    (k : Nat) (v d : α) (h : lookupA l k = some v) :
    (lookupA l k).getD d = v := by
  rw [h]; rfl

theorem levelWF_congr (nodes nodes' : List (Nat × OrderNode)) (isBuy : Bool)
    (p : Price) (L : Level)
    (hagree : ∀ nid ∈ L.orders, lookupA nodes' nid = lookupA nodes nid)
    (h : levelWF nodes isBuy p L) : levelWF nodes' isBuy p L := by
  obtain ⟨h1, h2, h3, h4⟩ := h
  refine ⟨h1, h2, ?_, ?_⟩
  · rw [h3]
    congr 1
    congr 1
    apply List.map_congr_left
    intro a ha
    simp [qtyOf, hagree a ha]
  · intro nid hnid
    rw [hagree nid hnid]
    exact h4 nid hnid

/-! ## Operation characterization lemmas -/

/-- The side map selected by a buy/sell flag. -/
def sideOf (b : OrderBook) (isBuy : Bool) : Side :=
  if isBuy then b.bid_levels else b.ask_levels

/-- FIFO queue stored at a price on one side map ([] when the level is
absent). -/
def queueOf (side : Side) (p : Price) : List Nat :=
  match findL side p with
  | none => []
  | some L => L.orders

/-- Aggregate quantity stored at a price on one side map (0 when the level
is absent). -/
def aggOf (side : Side) (p : Price) : Nat :=
  match findL side p with
  | none => 0
  | some L => L.total_quantity

/-- The FIFO queue resting at a given side and price ([] when the level is
absent). -/
def queueAt (b : OrderBook) (isBuy : Bool) (p : Price) : List Nat :=
  queueOf (sideOf b isBuy) p

theorem allocate_nodes (b : OrderBook) : (allocate b).2.nodes = b.nodes := by
  cases h : b.free_list <;> simp [allocate, h]

theorem allocate_bid (b : OrderBook) : (allocate b).2.bid_levels = b.bid_levels := by
  cases h : b.free_list <;> simp [allocate, h]

theorem allocate_ask (b : OrderBook) : (allocate b).2.ask_levels = b.ask_levels := by
  cases h : b.free_list <;> simp [allocate, h]

theorem allocate_idx (b : OrderBook) : (allocate b).2.order_lookup = b.order_lookup := by
  cases h : b.free_list <;> simp [allocate, h]

theorem allocate_orders (b : OrderBook) : (allocate b).2.total_orders = b.total_orders := by
  cases h : b.free_list <;> simp [allocate, h]

theorem allocate_cancels (b : OrderBook) : (allocate b).2.total_cancels = b.total_cancels := by
  cases h : b.free_list <;> simp [allocate, h]

theorem allocate_amends (b : OrderBook) : (allocate b).2.total_amends = b.total_amends := by
  cases h : b.free_list <;> simp [allocate, h]

/-- The allocated slot id is dead in the pre-state store. -/
theorem allocate_not_live (b : OrderBook) (hwf : WF b) :
    lookupA b.nodes (allocate b).1 = none := by
  cases h : b.free_list with
  | nil =>
    simp only [allocate, h]
    apply lookupA_none_of_not_mem
    intro hc
    rcases List.mem_map.mp hc with ⟨e, he, hke⟩
    have := (hwf.nodesBound e he).1
    omega
  | cons nid0 rest =>
    simp only [allocate, h]
    exact (hwf.freeFresh nid0 (by rw [h]; exact List.mem_cons_self _ _)).2

/-- A dead slot id is queued nowhere on a well-formed side. -/
theorem not_queued_of_not_live (nodes : List (Nat × OrderNode)) (isBuy : Bool)
    (lt : Price → Price → Bool) (side : Side) (nid : Nat)
    (hside : sideWF nodes isBuy lt side) (hdead : lookupA nodes nid = none) :
    nid ∉ queuedIds side := by
  intro hc
  rcases mem_queuedIds.mp hc with ⟨e, he, hn⟩
  rcases (hside.2 e he).2.2.2 nid hn with ⟨nd, hnd, _⟩
  rw [hdead] at hnd
  exact Option.noConfusion hnd

theorem cancel_order_not_found (b : OrderBook) (oid : Nat)
    (h : lookupA b.order_lookup oid = none) : cancel_order b oid = (false, b) := by
  simp [cancel_order, h]

theorem cancel_order_found (b : OrderBook) (oid nid : Nat) (nd : OrderNode)
    (hidx : lookupA b.order_lookup oid = some nid)
    (hnode : lookupA b.nodes nid = some nd) :
    cancel_order b oid =
      (true,
        { b with
          bid_levels :=
            if nd.order.is_buy then remove_from_side b.bid_levels nid nd
            else b.bid_levels,
          ask_levels :=
            if nd.order.is_buy then b.ask_levels
            else remove_from_side b.ask_levels nid nd,
          order_lookup := eraseA b.order_lookup oid,
          nodes := eraseA b.nodes nid,
          free_list := nid :: b.free_list,
          total_cancels := b.total_cancels + 1 }) := by
  cases hb : nd.order.is_buy <;> simp [cancel_order, hidx, hnode, hb]

theorem amend_order_not_found (b : OrderBook) (oid : Nat) (np : Price)
    (nq ts : Nat) (h : lookupA b.order_lookup oid = none) :
    amend_order b oid np nq ts = (false, b) := by
  simp [amend_order, h]

theorem amend_order_price_change (b : OrderBook) (oid nid : Nat) (nd : OrderNode)
    (np : Price) (nq ts : Nat)
    (hidx : lookupA b.order_lookup oid = some nid)
    (hnode : lookupA b.nodes nid = some nd)
    (htol : |nd.order.price - np| > amendTol) :
    amend_order b oid np nq ts =
      (true,
        let b2 := add_order (cancel_order b oid).2
          { nd.order with price := np, quantity := nq, timestamp_ns := ts }
        { b2 with total_amends := b2.total_amends + 1 }) := by
  simp [amend_order, hidx, hnode, htol]

theorem amend_order_qty_buy (b : OrderBook) (oid nid : Nat) (nd : OrderNode)
    (np : Price) (nq ts : Nat)
    (hidx : lookupA b.order_lookup oid = some nid)
    (hnode : lookupA b.nodes nid = some nd)
    (htol : ¬ |nd.order.price - np| > amendTol)
    (hb : nd.order.is_buy = true) :
    amend_order b oid np nq ts =
      (true,
        { b with
          bid_levels := (update_quantity_in_place b.bid_levels nd nq).1,
          nodes := setA b.nodes nid (update_quantity_in_place b.bid_levels nd nq).2,
          total_amends := b.total_amends + 1 }) := by
  simp [amend_order, hidx, hnode, htol, hb]

theorem amend_order_qty_sell (b : OrderBook) (oid nid : Nat) (nd : OrderNode)
    (np : Price) (nq ts : Nat)
    (hidx : lookupA b.order_lookup oid = some nid)
    (hnode : lookupA b.nodes nid = some nd)
    (htol : ¬ |nd.order.price - np| > amendTol)
    (hb : nd.order.is_buy = false) :
    amend_order b oid np nq ts =
      (true,
        { b with
          ask_levels := (update_quantity_in_place b.ask_levels nd nq).1,
          nodes := setA b.nodes nid (update_quantity_in_place b.ask_levels nd nq).2,
          total_amends := b.total_amends + 1 }) := by
  simp [amend_order, hidx, hnode, htol, hb]

theorem add_order_buy (b : OrderBook) (o : Order) (h : o.is_buy = true) :
    add_order b o =
      { (allocate b).2 with
        nodes := insertA (allocate b).2.nodes (allocate b).1 ⟨o⟩,
        order_lookup := insertA (allocate b).2.order_lookup o.order_id (allocate b).1,
        bid_levels := add_to_side bidLt (allocate b).2.bid_levels (allocate b).1 ⟨o⟩,
        total_orders := (allocate b).2.total_orders + 1 } := by
  simp [add_order, h]

theorem add_order_sell (b : OrderBook) (o : Order) (h : o.is_buy = false) :
    add_order b o =
      { (allocate b).2 with
        nodes := insertA (allocate b).2.nodes (allocate b).1 ⟨o⟩,
        order_lookup := insertA (allocate b).2.order_lookup o.order_id (allocate b).1,
        ask_levels := add_to_side askLt (allocate b).2.ask_levels (allocate b).1 ⟨o⟩,
        total_orders := (allocate b).2.total_orders + 1 } := by
  simp [add_order, h]

/-! ## Queue bookkeeping lemmas -/

theorem remove_from_side_not_found (side : Side) (nid : Nat) (nd : OrderNode)
    (h : findL side nd.order.price = none) : remove_from_side side nid nd = side := by
  simp [remove_from_side, h]

theorem queuedIds_add_to_side (lt : Price → Price → Bool) (side : Side)
    (nid : Nat) (nd : OrderNode) :
    (queuedIds (add_to_side lt side nid nd)).Perm (nid :: queuedIds side) := by
  cases hF : findL side nd.order.price with
  | some L =>
    obtain ⟨s1, s2, hs, _, _, hr⟩ := findL_decomp _ _ _ hF
    simp only [add_to_side, hF]
    rw [hr, hs, queuedIds_append, queuedIds_append]
    simp only [queuedIds]
    have h1 : queuedIds s1 ++ ((L.orders ++ [nid]) ++ queuedIds s2) =
        (queuedIds s1 ++ L.orders) ++ nid :: queuedIds s2 := by
      simp [List.append_assoc]
    have h2 : (queuedIds s1 ++ L.orders) ++ nid :: queuedIds s2 =
        ((queuedIds s1 ++ L.orders) ++ [nid]) ++ queuedIds s2 := by
      simp [List.append_assoc]
    rw [h1]
    refine (List.perm_middle).trans ?_
    apply List.Perm.cons
    simp [List.append_assoc]
  | none =>
    obtain ⟨s1, s2, hs, hi, _, _⟩ := insertSorted_decomp lt nd.order.price
      { price := nd.order.price, total_quantity := u64add 0 nd.order.quantity,
        orders := [nid] } side
    simp only [add_to_side, hF]
    rw [hi, hs, queuedIds_append, queuedIds_append]
    simp only [queuedIds]
    have h1 : queuedIds s1 ++ ([nid] ++ queuedIds s2) =
        queuedIds s1 ++ nid :: queuedIds s2 := by simp
    rw [h1]
    exact List.perm_middle

theorem queuedIds_remove_from_side (side : Side) (nid : Nat) (nd : OrderNode)
    (L : Level) (hF : findL side nd.order.price = some L) (hmem : nid ∈ L.orders) :
    (queuedIds side).Perm (nid :: queuedIds (remove_from_side side nid nd)) := by
  obtain ⟨s1, s2, hs, _, he, hr⟩ := findL_decomp _ _ _ hF
  have hperm : L.orders.Perm (nid :: L.orders.erase nid) := List.perm_cons_erase hmem
  by_cases hz : L.orders.erase nid = []
  · have hrm : remove_from_side side nid nd = s1 ++ s2 := by
      simp only [remove_from_side, hF, hz]
      simpa [hz] using he
    rw [hrm, hs, queuedIds_append, queuedIds_append]
    simp only [queuedIds]
    have h2 : (L.orders ++ queuedIds s2).Perm (nid :: queuedIds s2) := by
      simpa [hz] using hperm.append_right (queuedIds s2)
    exact (List.Perm.append_left _ h2).trans List.perm_middle
  · have hrm : remove_from_side side nid nd =
        s1 ++ (nd.order.price,
          { price := L.price,
            total_quantity := u64sub L.total_quantity nd.order.quantity,
            orders := L.orders.erase nid }) :: s2 := by
      simp only [remove_from_side, hF, hz, if_neg hz]
      exact hr _
    rw [hrm, hs, queuedIds_append, queuedIds_append]
    simp only [queuedIds]
    have h2 : (L.orders ++ queuedIds s2).Perm
        (nid :: (L.orders.erase nid ++ queuedIds s2)) := by
      simpa using hperm.append_right (queuedIds s2)
    exact (List.Perm.append_left _ h2).trans List.perm_middle

theorem queuedIds_update_qty (side : Side) (nd : OrderNode) (nq : Nat) :
    queuedIds ((update_quantity_in_place side nd nq).1) = queuedIds side := by
  cases hF : findL side nd.order.price with
  | none => simp [update_quantity_in_place, hF]
  | some L =>
    obtain ⟨s1, s2, hs, _, _, hr⟩ := findL_decomp _ _ _ hF
    simp only [update_quantity_in_place, hF]
    rw [hr, hs, queuedIds_append, queuedIds_append]
    simp [queuedIds]

theorem sideWF_congr (nodes nodes' : List (Nat × OrderNode)) (isBuy : Bool)
    (lt : Price → Price → Bool) (side : Side)
    (hagree : ∀ m ∈ queuedIds side, lookupA nodes' m = lookupA nodes m)
    (h : sideWF nodes isBuy lt side) : sideWF nodes' isBuy lt side := by
  refine ⟨h.1, ?_⟩
  intro e he
  apply levelWF_congr nodes nodes'
  · intro m hm
    exact hagree m (mem_queuedIds.mpr ⟨e, he, hm⟩)
  · exact h.2 e he

/-! ## sideWF preservation under the three side operations -/

theorem sideWF_add_to_side
    (nodes : List (Nat × OrderNode)) (isBuy : Bool) (lt : Price → Price → Bool)
    (htrans : ∀ {a b c : Price}, lt a b = true → lt b c = true → lt a c = true)
    (htot : ∀ {a b : Price}, a ≠ b → lt a b = true ∨ lt b a = true)
    (side : Side) (nid : Nat) (nd : OrderNode)
    (hside : sideWF nodes isBuy lt side)
    (hmatch : nd.order.is_buy = isBuy)
    (hfresh : nid ∉ queuedIds side) :
    sideWF (insertA nodes nid nd) isBuy lt (add_to_side lt side nid nd) := by
  have hagree : ∀ m ∈ queuedIds side,
      lookupA (insertA nodes nid nd) m = lookupA nodes m := by
    intro m hm
    refine lookupA_insertA_ne _ _ _ _ ?_
    rintro rfl
    exact hfresh hm
  have hself : lookupA (insertA nodes nid nd) nid = some nd :=
    lookupA_insertA_self _ _ _
  cases hF : findL side nd.order.price with
  | some L =>
    have hLmem : (nd.order.price, L) ∈ side := mem_of_findL_some _ _ _ hF
    obtain ⟨hLp, hLne, hLsum, hLlive⟩ := hside.2 _ hLmem
    simp only [add_to_side, hF]
    refine ⟨pairwise_replaceL lt side _ _ hside.1, ?_⟩
    intro e he
    rcases mem_replaceL _ _ _ _ he with rfl | he2
    · refine ⟨rfl, by simp, ?_, ?_⟩
      · have hmapeq : L.orders.map (qtyOf (insertA nodes nid nd)) =
            L.orders.map (qtyOf nodes) := by
          apply List.map_congr_left
          intro a ha
          simp [qtyOf, hagree a (mem_queuedIds.mpr ⟨_, hLmem, ha⟩)]
        have hq : qtyOf (insertA nodes nid nd) nid = nd.order.quantity := by
          simp [qtyOf, hself]
        simp only [List.map_append, List.sum_append, hmapeq, List.map_cons,
          List.map_nil, List.sum_cons, List.sum_nil, hq]
        rw [hLsum, u64add_mod_left]
        simp
      · intro m hm
        rcases List.mem_append.mp hm with hm | hm
        · obtain ⟨nd', hnd', hb', hp'⟩ := hLlive m hm
          exact ⟨nd', by
            rw [hagree m (mem_queuedIds.mpr ⟨_, hLmem, hm⟩)]; exact hnd', hb', hp'⟩
        · simp only [List.mem_singleton] at hm
          subst hm
          exact ⟨nd, hself, hmatch, rfl⟩
    · exact levelWF_congr nodes _ isBuy e.1 e.2
        (fun m hm => hagree m (mem_queuedIds.mpr ⟨e, he2, hm⟩)) (hside.2 e he2)
  | none =>
    simp only [add_to_side, hF]
    refine ⟨pairwise_insertSorted lt htrans htot side _ _
      (not_mem_of_findL_none _ _ hF) hside.1, ?_⟩
    intro e he
    rcases mem_insertSorted _ _ _ _ _ he with rfl | he2
    · refine ⟨rfl, by simp, ?_, ?_⟩
      · have hq : qtyOf (insertA nodes nid nd) nid = nd.order.quantity := by
          simp [qtyOf, hself]
        simp [hq, u64add]
      · intro m hm
        simp only [List.mem_singleton] at hm
        subst hm
        exact ⟨nd, hself, hmatch, rfl⟩
    · exact levelWF_congr nodes _ isBuy e.1 e.2
        (fun m hm => hagree m (mem_queuedIds.mpr ⟨e, he2, hm⟩)) (hside.2 e he2)

theorem sideWF_remove_from_side
    (nodes : List (Nat × OrderNode)) (isBuy : Bool) (lt : Price → Price → Bool)
    (side : Side) (nid : Nat) (nd : OrderNode) (L : Level)
    (hside : sideWF nodes isBuy lt side)
    (hqnodup : (queuedIds side).Nodup)
    (hnd : lookupA nodes nid = some nd)
    (hqty : nd.order.quantity < u64Mod)
    (hF : findL side nd.order.price = some L)
    (hmem : nid ∈ L.orders) :
    sideWF (eraseA nodes nid) isBuy lt (remove_from_side side nid nd) := by
  have hperm := queuedIds_remove_from_side side nid nd L hF hmem
  have hnodup2 : (nid :: queuedIds (remove_from_side side nid nd)).Nodup :=
    hperm.nodup_iff.mp hqnodup
  have hnotin : nid ∉ queuedIds (remove_from_side side nid nd) :=
    (List.nodup_cons.mp hnodup2).1
  have hagree : ∀ m ∈ queuedIds (remove_from_side side nid nd),
      lookupA (eraseA nodes nid) m = lookupA nodes m := by
    intro m hm
    refine lookupA_eraseA_ne _ _ _ ?_
    rintro rfl
    exact hnotin hm
  obtain ⟨hLp, hLne, hLsum, hLlive⟩ := hside.2 _ (mem_of_findL_some _ _ _ hF)
  dsimp only at hLp hLne hLsum hLlive
  by_cases hz : L.orders.erase nid = []
  · have hres : remove_from_side side nid nd = eraseL side nd.order.price := by
      simp only [remove_from_side, hF]
      simp [hz]
    rw [hres] at hagree ⊢
    refine ⟨pairwise_eraseL lt side _ hside.1, ?_⟩
    intro e he
    have he2 : e ∈ side := (eraseL_sublist side _).subset he
    exact levelWF_congr nodes _ isBuy e.1 e.2
      (fun m hm => hagree m (mem_queuedIds.mpr ⟨e, he, hm⟩)) (hside.2 e he2)
  · have hres : remove_from_side side nid nd = replaceL side nd.order.price
        { price := L.price,
          total_quantity := u64sub L.total_quantity nd.order.quantity,
          orders := L.orders.erase nid } := by
      simp only [remove_from_side, hF]
      simp [hz]
    rw [hres] at hagree hnotin ⊢
    refine ⟨pairwise_replaceL lt side _ _ hside.1, ?_⟩
    intro e he
    rcases mem_replaceL _ _ _ _ he with rfl | he2
    · have heq : findL (replaceL side nd.order.price
          { price := L.price,
            total_quantity := u64sub L.total_quantity nd.order.quantity,
            orders := L.orders.erase nid }) nd.order.price = some
          { price := L.price,
            total_quantity := u64sub L.total_quantity nd.order.quantity,
            orders := L.orders.erase nid } :=
        findL_replaceL_self _ _ _ _ hF
      have hofmem : (nd.order.price,
          ({ price := L.price,
             total_quantity := u64sub L.total_quantity nd.order.quantity,
             orders := L.orders.erase nid } : Level)) ∈ replaceL side nd.order.price
          { price := L.price,
            total_quantity := u64sub L.total_quantity nd.order.quantity,
            orders := L.orders.erase nid } := mem_of_findL_some _ _ _ heq
      have hsplit := sum_map_mem_split L.orders nid (qtyOf nodes) hmem
      have hqnid : qtyOf nodes nid = nd.order.quantity := by simp [qtyOf, hnd]
      rw [hqnid] at hsplit
      refine ⟨hLp, hz, ?_, ?_⟩
      · have hmapeq : (L.orders.erase nid).map (qtyOf (eraseA nodes nid)) =
            (L.orders.erase nid).map (qtyOf nodes) := by
          apply List.map_congr_left
          intro a ha
          simp [qtyOf, hagree a (mem_queuedIds.mpr ⟨_, hofmem, ha⟩)]
        simp only [hmapeq]
        rw [hLsum, u64sub_mod_left _ _ (by omega) hqty]
        congr 1
        omega
      · intro m hm
        have hmL : m ∈ L.orders := List.mem_of_mem_erase hm
        obtain ⟨nd', hnd', hb', hp'⟩ := hLlive m hmL
        exact ⟨nd', by
          rw [hagree m (mem_queuedIds.mpr ⟨_, hofmem, hm⟩)]; exact hnd', hb', hp'⟩
    · exact levelWF_congr nodes _ isBuy e.1 e.2
        (fun m hm => hagree m (mem_queuedIds.mpr ⟨e, he, hm⟩)) (hside.2 e he2)

theorem update_qty_snd (side : Side) (nd : OrderNode) (nq : Nat) (L : Level)
    (hF : findL side nd.order.price = some L) :
    (update_quantity_in_place side nd nq).2 =
      ⟨{ nd.order with quantity := nq }⟩ := by
  simp [update_quantity_in_place, hF]

theorem update_qty_fst (side : Side) (nd : OrderNode) (nq : Nat) (L : Level)
    (hF : findL side nd.order.price = some L) :
    (update_quantity_in_place side nd nq).1 =
      replaceL side nd.order.price
        { price := L.price,
          total_quantity := u64add (u64sub L.total_quantity nd.order.quantity) nq,
          orders := L.orders } := by
  simp [update_quantity_in_place, hF]

theorem sideWF_update_qty
    (nodes : List (Nat × OrderNode)) (isBuy : Bool) (lt : Price → Price → Bool)
    (side : Side) (nid : Nat) (nd : OrderNode) (nq : Nat) (L : Level)
    (hside : sideWF nodes isBuy lt side)
    (hqnodup : (queuedIds side).Nodup)
    (hnd : lookupA nodes nid = some nd)
    (hqty : nd.order.quantity < u64Mod)
    (hmatch : nd.order.is_buy = isBuy)
    (hF : findL side nd.order.price = some L)
    (hmem : nid ∈ L.orders) :
    sideWF (setA nodes nid ⟨{ nd.order with quantity := nq }⟩) isBuy lt
      ((update_quantity_in_place side nd nq).1) := by
  obtain ⟨s1, s2, hs, hk1, he, hr⟩ := findL_decomp _ _ _ hF
  obtain ⟨hLp, hLne, hLsum, hLlive⟩ := hside.2 _ (mem_of_findL_some _ _ _ hF)
  dsimp only at hLp hLne hLsum hLlive
  have hqsplit : (queuedIds s1).Nodup ∧ (L.orders ++ queuedIds s2).Nodup ∧
      (queuedIds s1).Disjoint (L.orders ++ queuedIds s2) := by
    rw [hs, queuedIds_append] at hqnodup
    simp only [queuedIds] at hqnodup
    exact List.nodup_append.mp hqnodup
  have hLnodup : L.orders.Nodup := (List.nodup_append.mp hqsplit.2.1).1
  have hq1 : nid ∉ queuedIds s1 := fun hc => hqsplit.2.2 hc (by
    exact List.mem_append.mpr (Or.inl hmem))
  have hq2 : nid ∉ queuedIds s2 := fun hc =>
    (List.nodup_append.mp hqsplit.2.1).2.2 hmem hc
  have hselfset : lookupA (setA nodes nid ⟨{ nd.order with quantity := nq }⟩) nid =
      some ⟨{ nd.order with quantity := nq }⟩ :=
    lookupA_setA_self _ _ _ (by rw [hnd]; exact fun hc => Option.noConfusion hc)
  have hagree : ∀ m, m ≠ nid →
      lookupA (setA nodes nid ⟨{ nd.order with quantity := nq }⟩) m =
        lookupA nodes m := fun m hm => lookupA_setA_ne _ _ _ _ hm
  rw [update_qty_fst side nd nq L hF]
  refine ⟨pairwise_replaceL lt side _ _ hside.1, ?_⟩
  intro e he2
  rw [hr] at he2
  rcases List.mem_append.mp he2 with he3 | he3
  · -- entry in the prefix: its members avoid nid
    have hein : e ∈ side := by
      rw [hs]
      exact List.mem_append.mpr (Or.inl he3)
    refine levelWF_congr nodes _ isBuy e.1 e.2 ?_ (hside.2 e hein)
    intro m hm
    refine hagree m ?_
    rintro rfl
    exact hq1 (mem_queuedIds.mpr ⟨e, he3, hm⟩)
  · rcases List.mem_cons.mp he3 with he4 | he4
    · -- the updated level
      subst he4
      have hsplitold := sum_map_mem_split L.orders nid (qtyOf nodes) hmem
      have hqnid : qtyOf nodes nid = nd.order.quantity := by simp [qtyOf, hnd]
      rw [hqnid] at hsplitold
      refine ⟨hLp, hLne, ?_, ?_⟩
      · -- aggregate bookkeeping
        have hsplitnew := sum_map_mem_split L.orders nid
          (qtyOf (setA nodes nid ⟨{ nd.order with quantity := nq }⟩)) hmem
        have hqnid' : qtyOf (setA nodes nid ⟨{ nd.order with quantity := nq }⟩) nid
            = nq := by simp [qtyOf, hselfset]
        have hmapeq : (L.orders.erase nid).map
            (qtyOf (setA nodes nid ⟨{ nd.order with quantity := nq }⟩)) =
            (L.orders.erase nid).map (qtyOf nodes) := by
          apply List.map_congr_left
          intro a ha
          have : a ≠ nid := ((List.Nodup.mem_erase_iff hLnodup).mp ha).1
          simp [qtyOf, hagree a this]
        rw [hqnid', hmapeq] at hsplitnew
        dsimp only
        rw [hsplitnew, hLsum, u64sub_mod_left _ _ (by omega) hqty,
          u64add_mod_left]
        congr 1
        omega
      · intro m hm
        by_cases hmn : m = nid
        · subst hmn
          exact ⟨⟨{ nd.order with quantity := nq }⟩, hselfset, hmatch, rfl⟩
        · obtain ⟨nd', hnd', hb', hp'⟩ := hLlive m hm
          exact ⟨nd', by rw [hagree m hmn]; exact hnd', hb', hp'⟩
    · -- entry in the suffix
      have hein : e ∈ side := by
        rw [hs]
        exact List.mem_append.mpr (Or.inr (List.mem_cons_of_mem _ he4))
      refine levelWF_congr nodes _ isBuy e.1 e.2 ?_ (hside.2 e hein)
      intro m hm
      refine hagree m ?_
      rintro rfl
      exact hq2 (mem_queuedIds.mpr ⟨e, he4, hm⟩)

/-! ## Further bookkeeping lemmas for the allocator, the key lists and the
side operations -/

theorem allocate_fst_lt (b : OrderBook) (hwf : WF b) :
    (allocate b).1 < (allocate b).2.alloc_count := by
  cases h : b.free_list with
  | nil => simp [allocate, h]
  | cons nid0 rest =>
    simp only [allocate, h]
    exact (hwf.freeFresh nid0 (by rw [h]; exact List.mem_cons_self _ _)).1

theorem allocate_alloc_le (b : OrderBook) :
    b.alloc_count ≤ (allocate b).2.alloc_count := by
  cases h : b.free_list <;> simp [allocate, h]

theorem allocate_free_nodup (b : OrderBook) (hwf : WF b) :
    (allocate b).2.free_list.Nodup := by
  cases h : b.free_list with
  | nil => simp [allocate, h]
  | cons nid0 rest =>
    simp only [allocate, h]
    have := hwf.freeNodup
    rw [h] at this
    exact (List.nodup_cons.mp this).2

theorem allocate_free_spec (b : OrderBook) (hwf : WF b) :
    ∀ m ∈ (allocate b).2.free_list, m ≠ (allocate b).1 ∧
      m < (allocate b).2.alloc_count ∧ lookupA b.nodes m = none := by
  cases h : b.free_list with
  | nil => simp [allocate, h]
  | cons nid0 rest =>
    simp only [allocate, h]
    intro m hm
    have hnodup := hwf.freeNodup
    rw [h] at hnodup
    have hne : m ≠ nid0 := by
      rintro rfl
      exact (List.nodup_cons.mp hnodup).1 hm
    have hmem : m ∈ b.free_list := by rw [h]; exact List.mem_cons_of_mem _ hm
    exact ⟨hne, (hwf.freeFresh m hmem).1, (hwf.freeFresh m hmem).2⟩

theorem not_mem_keys_of_lookupA_none {α : Type} (l : List (Nat × α)) (k : Nat)
    (h : lookupA l k = none) : k ∉ l.map Prod.fst :=
  fun hc => lookupA_isSome_of_mem_keys l k hc h

theorem keys_insertA_not_mem {α : Type} (l : List (Nat × α)) (k : Nat) (v : α)
    (h : k ∉ l.map Prod.fst) :
    (insertA l k v).map Prod.fst = l.map Prod.fst ++ [k] := by
  induction l with
  | nil => simp [insertA]
  | cons e t ih =>
    obtain ⟨k0, w⟩ := e
    simp only [List.map_cons, List.mem_cons] at h
    push_neg at h
    simp [insertA, Ne.symm h.1, ih h.2]

theorem keys_setA {α : Type} (l : List (Nat × α)) (k : Nat) (v : α) :
    (setA l k v).map Prod.fst = l.map Prod.fst := by
  induction l with
  | nil => rfl
  | cons e t ih =>
    obtain ⟨k0, w⟩ := e
    by_cases h0 : k0 = k
    · subst h0; simp [setA]
    · simp [setA, h0, ih]

theorem vals_insertA_nodup {α : Type} [DecidableEq α] (l : List (Nat × α))
    (k : Nat) (v : α) (hnod : (l.map Prod.snd).Nodup)
    (hnew : v ∉ l.map Prod.snd) :
    ((insertA l k v).map Prod.snd).Nodup := by
  induction l with
  | nil => simp [insertA]
  | cons e t ih =>
    obtain ⟨k0, w⟩ := e
    simp only [List.map_cons, List.nodup_cons] at hnod
    simp only [List.map_cons, List.mem_cons] at hnew
    push_neg at hnew
    by_cases h0 : k0 = k
    · subst h0
      have hrw : insertA ((k0, w) :: t) k0 v = (k0, v) :: t := by simp [insertA]
      rw [hrw]
      simp only [List.map_cons, List.nodup_cons]
      exact ⟨hnew.2, hnod.2⟩
    · simp only [insertA, if_neg h0, List.map_cons, List.nodup_cons]
      refine ⟨?_, ih hnod.2 hnew.2⟩
      intro hc
      rcases List.mem_map.mp hc with ⟨e', he', hv⟩
      rcases mem_insertA t k v e' he' with rfl | he2
      · exact hnew.1 (by simpa using hv)
      · exact hnod.1 (hv ▸ List.mem_map_of_mem Prod.snd he2)

theorem eraseA_sublist {α : Type} (l : List (Nat × α)) (k : Nat) :
    (eraseA l k).Sublist l := by
  induction l with
  | nil => simp [eraseA]
  | cons e t ih =>
    obtain ⟨k0, w⟩ := e
    by_cases h0 : k0 = k
    · subst h0
      simp only [eraseA, if_pos rfl]
      exact List.sublist_cons_self _ _
    · simp only [eraseA, if_neg h0]
      exact ih.cons₂ _

theorem mem_eraseA_ne_key {α : Type} (l : List (Nat × α)) (k : Nat)
    (hnod : (l.map Prod.fst).Nodup) (e : Nat × α) (h : e ∈ eraseA l k) :
    e ∈ l ∧ e.1 ≠ k := by
  induction l with
  | nil => simp [eraseA] at h
  | cons e0 t ih =>
    obtain ⟨k0, w⟩ := e0
    simp only [List.map_cons, List.nodup_cons] at hnod
    by_cases h0 : k0 = k
    · subst h0
      simp only [eraseA, if_pos rfl] at h
      refine ⟨List.mem_cons_of_mem _ h, ?_⟩
      intro hc
      exact hnod.1 (hc ▸ List.mem_map_of_mem Prod.fst h)
    · simp only [eraseA, if_neg h0] at h
      rcases List.mem_cons.mp h with h1 | h1
      · subst h1
        exact ⟨List.mem_cons_self _ _, h0⟩
      · obtain ⟨hm, hk⟩ := ih hnod.2 h1
        exact ⟨List.mem_cons_of_mem _ hm, hk⟩

theorem findL_add_to_side_ne (lt : Price → Price → Bool) (side : Side)
    (nid : Nat) (nd : OrderNode) (q : Price) (h : q ≠ nd.order.price) :
    findL (add_to_side lt side nid nd) q = findL side q := by
  cases hF : findL side nd.order.price with
  | some L =>
    simp only [add_to_side, hF]
    exact findL_replaceL_ne _ _ _ _ h
  | none =>
    simp only [add_to_side, hF]
    exact findL_insertSorted_ne _ _ _ _ _ h

theorem add_to_side_queue (lt : Price → Price → Bool)
    (hirr : ∀ a, lt a a = false) (side : Side) (nid : Nat) (nd : OrderNode) :
    findL (add_to_side lt side nid nd) nd.order.price = some
      { price := nd.order.price,
        total_quantity := u64add (aggOf side nd.order.price) nd.order.quantity,
        orders := queueOf side nd.order.price ++ [nid] } := by
  cases hF : findL side nd.order.price with
  | some L =>
    simp only [add_to_side, hF, queueOf, aggOf]
    rw [findL_replaceL_self _ _ L _ hF]
  | none =>
    simp only [add_to_side, hF, queueOf, aggOf]
    rw [findL_insertSorted_self lt hirr]
    simp

theorem findL_remove_from_side_ne (side : Side) (nid : Nat) (nd : OrderNode)
    (q : Price) (h : q ≠ nd.order.price) :
    findL (remove_from_side side nid nd) q = findL side q := by
  cases hF : findL side nd.order.price with
  | none => simp [remove_from_side, hF]
  | some L =>
    by_cases hz : L.orders.erase nid = []
    · have hres : remove_from_side side nid nd = eraseL side nd.order.price := by
        simp only [remove_from_side, hF]
        simp [hz]
      rw [hres]
      exact findL_eraseL_ne _ _ _ h
    · have hres : remove_from_side side nid nd = replaceL side nd.order.price
          { price := L.price,
            total_quantity := u64sub L.total_quantity nd.order.quantity,
            orders := L.orders.erase nid } := by
        simp only [remove_from_side, hF]
        simp [hz]
      rw [hres]
      exact findL_replaceL_ne _ _ _ _ h

theorem findL_update_qty_ne (side : Side) (nd : OrderNode) (nq : Nat)
    (q : Price) (h : q ≠ nd.order.price) :
    findL ((update_quantity_in_place side nd nq).1) q = findL side q := by
  cases hF : findL side nd.order.price with
  | none => simp [update_quantity_in_place, hF]
  | some L =>
    simp only [update_quantity_in_place, hF]
    exact findL_replaceL_ne _ _ _ _ h

theorem findL_update_qty_self (side : Side) (nd : OrderNode) (nq : Nat)
    (L : Level) (hF : findL side nd.order.price = some L) :
    findL ((update_quantity_in_place side nd nq).1) nd.order.price = some
      { price := L.price,
        total_quantity := u64add (u64sub L.total_quantity nd.order.quantity) nq,
        orders := L.orders } := by
  simp only [update_quantity_in_place, hF]
  exact findL_replaceL_self _ _ L _ hF

theorem insertA_keys_nodup {α : Type} (l : List (Nat × α)) (k : Nat) (v : α)
    (h : (l.map Prod.fst).Nodup) : ((insertA l k v).map Prod.fst).Nodup := by
  induction l with
  | nil => simp [insertA]
  | cons e t ih =>
    obtain ⟨k0, w⟩ := e
    simp only [List.map_cons, List.nodup_cons] at h
    by_cases h0 : k0 = k
    · subst h0
      have hrw : insertA ((k0, w) :: t) k0 v = (k0, v) :: t := by simp [insertA]
      rw [hrw]
      simp only [List.map_cons, List.nodup_cons]
      exact h
    · simp only [insertA, if_neg h0, List.map_cons, List.nodup_cons]
      refine ⟨?_, ih h.2⟩
      intro hc
      rcases List.mem_map.mp hc with ⟨e', he', hv⟩
      rcases mem_insertA t k v e' he' with rfl | he2
      · have hkk : k = k0 := by simpa using hv
        exact h0 hkk.symm
      · exact h.1 (hv ▸ List.mem_map_of_mem Prod.fst he2)

theorem WF_add_order (b : OrderBook) (o : Order) (hwf : WF b)
    (hq : o.quantity < u64Mod) : WF (add_order b o) := by
  have hdead : lookupA b.nodes (allocate b).1 = none := allocate_not_live b hwf
  have hfreshb : (allocate b).1 ∉ queuedIds b.bid_levels :=
    not_queued_of_not_live _ _ _ _ _ hwf.bidWF hdead
  have hfresha : (allocate b).1 ∉ queuedIds b.ask_levels :=
    not_queued_of_not_live _ _ _ _ _ hwf.askWF hdead
  have hkeys : (allocate b).1 ∉ b.nodes.map Prod.fst :=
    not_mem_keys_of_lookupA_none _ _ hdead
  have hvalsnew : (allocate b).1 ∉ b.order_lookup.map Prod.snd := by
    intro hc
    rcases List.mem_map.mp hc with ⟨e, he, hv⟩
    obtain ⟨nd', hnd', _⟩ := hwf.idxLive e he
    rw [hv, hdead] at hnd'
    exact Option.noConfusion hnd'
  have hagreeb : ∀ m ∈ queuedIds b.bid_levels,
      lookupA (insertA b.nodes (allocate b).1 ⟨o⟩) m = lookupA b.nodes m := by
    intro m hm
    refine lookupA_insertA_ne _ _ _ _ ?_
    rintro rfl
    exact hfreshb hm
  have hagreea : ∀ m ∈ queuedIds b.ask_levels,
      lookupA (insertA b.nodes (allocate b).1 ⟨o⟩) m = lookupA b.nodes m := by
    intro m hm
    refine lookupA_insertA_ne _ _ _ _ ?_
    rintro rfl
    exact hfresha hm
  cases hbuy : o.is_buy with
  | true =>
    rw [add_order_buy b o hbuy]
    refine ⟨?_, ?_, ?_, ?_, ?_, ?_, ?_, ?_, ?_, ?_, ?_⟩
    · -- bidWF
      simp only [allocate_nodes, allocate_bid]
      exact sideWF_add_to_side b.nodes true bidLt bidLt_trans bidLt_total
        b.bid_levels _ ⟨o⟩ hwf.bidWF (by simpa using hbuy) hfreshb
    · -- askWF
      simp only [allocate_nodes, allocate_ask]
      exact sideWF_congr _ _ _ _ _ hagreea hwf.askWF
    · -- queuedNodup
      simp only [allocate_nodes, allocate_bid, allocate_ask]
      have hperm := (queuedIds_add_to_side bidLt b.bid_levels (allocate b).1
        ⟨o⟩).append_right (queuedIds b.ask_levels)
      refine hperm.nodup_iff.mpr ?_
      rw [List.cons_append, List.nodup_cons]
      refine ⟨?_, hwf.queuedNodup⟩
      intro hc
      rcases List.mem_append.mp hc with hc | hc
      · exact hfreshb hc
      · exact hfresha hc
    · -- nodesKeysNodup
      simp only [allocate_nodes]
      exact insertA_keys_nodup _ _ _ hwf.nodesKeysNodup
    · -- nodesBound
      simp only [allocate_nodes]
      intro e he
      rcases mem_insertA _ _ _ _ he with rfl | he2
      · exact ⟨allocate_fst_lt b hwf, hq⟩
      · exact ⟨lt_of_lt_of_le (hwf.nodesBound e he2).1 (allocate_alloc_le b),
          (hwf.nodesBound e he2).2⟩
    · -- freeNodup
      exact allocate_free_nodup b hwf
    · -- freeFresh
      simp only [allocate_nodes]
      intro m hm
      obtain ⟨hne, hlt, hnone⟩ := allocate_free_spec b hwf m hm
      refine ⟨hlt, ?_⟩
      rw [lookupA_insertA_ne _ _ _ _ hne]
      exact hnone
    · -- idxKeysNodup
      simp only [allocate_idx]
      exact insertA_keys_nodup _ _ _ hwf.idxKeysNodup
    · -- idxValsNodup
      simp only [allocate_idx]
      exact vals_insertA_nodup _ _ _ hwf.idxValsNodup hvalsnew
    · -- idxLive
      simp only [allocate_idx, allocate_nodes]
      intro e he
      rcases mem_insertA _ _ _ _ he with rfl | he2
      · exact ⟨⟨o⟩, lookupA_insertA_self _ _ _, rfl⟩
      · obtain ⟨nd', hnd', hid⟩ := hwf.idxLive e he2
        have hne : e.2 ≠ (allocate b).1 := by
          rintro hcc
          rw [hcc, hdead] at hnd'
          exact Option.noConfusion hnd'
        exact ⟨nd', by rw [lookupA_insertA_ne _ _ _ _ hne]; exact hnd', hid⟩
    · -- nodesHome
      simp only [allocate_nodes, allocate_bid, allocate_ask]
      intro e he
      rcases mem_insertA _ _ _ _ he with rfl | he2
      · split_ifs with hsel
        · exact ⟨_, add_to_side_queue bidLt bidLt_irrefl b.bid_levels
            (allocate b).1 ⟨o⟩, by simp⟩
        · exact absurd (by simpa using hbuy) hsel
      · obtain ⟨L_e, hfind, hmem⟩ := hwf.nodesHome e he2
        split_ifs with hsel
        · rw [if_pos hsel] at hfind
          by_cases hp : e.2.order.price = o.price
          · have hqueue := add_to_side_queue bidLt bidLt_irrefl b.bid_levels
              (allocate b).1 (⟨o⟩ : OrderNode)
            dsimp only at hqueue
            rw [← hp] at hqueue
            refine ⟨_, hqueue, ?_⟩
            have hqof : queueOf b.bid_levels e.2.order.price = L_e.orders := by
              simp [queueOf, hfind]
            rw [hqof]
            exact List.mem_append.mpr (Or.inl hmem)
          · refine ⟨L_e, ?_, hmem⟩
            rw [findL_add_to_side_ne bidLt _ _ _ _ hp]
            exact hfind
        · rw [if_neg hsel] at hfind
          exact ⟨L_e, hfind, hmem⟩
  | false =>
    rw [add_order_sell b o hbuy]
    refine ⟨?_, ?_, ?_, ?_, ?_, ?_, ?_, ?_, ?_, ?_, ?_⟩
    · -- bidWF
      simp only [allocate_nodes, allocate_bid]
      exact sideWF_congr _ _ _ _ _ hagreeb hwf.bidWF
    · -- askWF
      simp only [allocate_nodes, allocate_ask]
      exact sideWF_add_to_side b.nodes false askLt askLt_trans askLt_total
        b.ask_levels _ ⟨o⟩ hwf.askWF (by simpa using hbuy) hfresha
    · -- queuedNodup
      simp only [allocate_nodes, allocate_bid, allocate_ask]
      have hperm := (queuedIds_add_to_side askLt b.ask_levels (allocate b).1
        ⟨o⟩).append_left (queuedIds b.bid_levels)
      refine hperm.nodup_iff.mpr ?_
      have hmid : (queuedIds b.bid_levels ++
          (allocate b).1 :: queuedIds b.ask_levels).Perm
          ((allocate b).1 :: (queuedIds b.bid_levels ++ queuedIds b.ask_levels)) :=
        List.perm_middle
      refine hmid.nodup_iff.mpr ?_
      rw [List.nodup_cons]
      refine ⟨?_, hwf.queuedNodup⟩
      intro hc
      rcases List.mem_append.mp hc with hc | hc
      · exact hfreshb hc
      · exact hfresha hc
    · -- nodesKeysNodup
      simp only [allocate_nodes]
      exact insertA_keys_nodup _ _ _ hwf.nodesKeysNodup
    · -- nodesBound
      simp only [allocate_nodes]
      intro e he
      rcases mem_insertA _ _ _ _ he with rfl | he2
      · exact ⟨allocate_fst_lt b hwf, hq⟩
      · exact ⟨lt_of_lt_of_le (hwf.nodesBound e he2).1 (allocate_alloc_le b),
          (hwf.nodesBound e he2).2⟩
    · -- freeNodup
      exact allocate_free_nodup b hwf
    · -- freeFresh
      simp only [allocate_nodes]
      intro m hm
      obtain ⟨hne, hlt, hnone⟩ := allocate_free_spec b hwf m hm
      refine ⟨hlt, ?_⟩
      rw [lookupA_insertA_ne _ _ _ _ hne]
      exact hnone
    · -- idxKeysNodup
      simp only [allocate_idx]
      exact insertA_keys_nodup _ _ _ hwf.idxKeysNodup
    · -- idxValsNodup
      simp only [allocate_idx]
      exact vals_insertA_nodup _ _ _ hwf.idxValsNodup hvalsnew
    · -- idxLive
      simp only [allocate_idx, allocate_nodes]
      intro e he
      rcases mem_insertA _ _ _ _ he with rfl | he2
      · exact ⟨⟨o⟩, lookupA_insertA_self _ _ _, rfl⟩
      · obtain ⟨nd', hnd', hid⟩ := hwf.idxLive e he2
        have hne : e.2 ≠ (allocate b).1 := by
          rintro hcc
          rw [hcc, hdead] at hnd'
          exact Option.noConfusion hnd'
        exact ⟨nd', by rw [lookupA_insertA_ne _ _ _ _ hne]; exact hnd', hid⟩
    · -- nodesHome
      simp only [allocate_nodes, allocate_bid, allocate_ask]
      intro e he
      rcases mem_insertA _ _ _ _ he with rfl | he2
      · split_ifs with hsel
        · exact absurd (by simpa using hsel) (by simp [hbuy])
        · exact ⟨_, add_to_side_queue askLt askLt_irrefl b.ask_levels
            (allocate b).1 ⟨o⟩, by simp⟩
      · obtain ⟨L_e, hfind, hmem⟩ := hwf.nodesHome e he2
        split_ifs with hsel
        · rw [if_pos hsel] at hfind
          exact ⟨L_e, hfind, hmem⟩
        · rw [if_neg hsel] at hfind
          by_cases hp : e.2.order.price = o.price
          · have hqueue := add_to_side_queue askLt askLt_irrefl b.ask_levels
              (allocate b).1 (⟨o⟩ : OrderNode)
            dsimp only at hqueue
            rw [← hp] at hqueue
            refine ⟨_, hqueue, ?_⟩
            have hqof : queueOf b.ask_levels e.2.order.price = L_e.orders := by
              simp [queueOf, hfind]
            rw [hqof]
            exact List.mem_append.mpr (Or.inl hmem)
          · refine ⟨L_e, ?_, hmem⟩
            rw [findL_add_to_side_ne askLt _ _ _ _ hp]
            exact hfind

theorem cancel_order_found_buy (b : OrderBook) (oid nid : Nat) (nd : OrderNode)
    (hidx : lookupA b.order_lookup oid = some nid)
    (hnode : lookupA b.nodes nid = some nd)
    (hb : nd.order.is_buy = true) :
    cancel_order b oid =
      (true,
        { b with
          bid_levels := remove_from_side b.bid_levels nid nd,
          order_lookup := eraseA b.order_lookup oid,
          nodes := eraseA b.nodes nid,
          free_list := nid :: b.free_list,
          total_cancels := b.total_cancels + 1 }) := by
  simp [cancel_order, hidx, hnode, hb]

theorem cancel_order_found_sell (b : OrderBook) (oid nid : Nat) (nd : OrderNode)
    (hidx : lookupA b.order_lookup oid = some nid)
    (hnode : lookupA b.nodes nid = some nd)
    (hb : nd.order.is_buy = false) :
    cancel_order b oid =
      (true,
        { b with
          ask_levels := remove_from_side b.ask_levels nid nd,
          order_lookup := eraseA b.order_lookup oid,
          nodes := eraseA b.nodes nid,
          free_list := nid :: b.free_list,
          total_cancels := b.total_cancels + 1 }) := by
  simp [cancel_order, hidx, hnode, hb]

theorem nodup_vals_inj {α : Type} (l : List (Nat × α))
    (h : (l.map Prod.snd).Nodup) {e1 e2 : Nat × α} (h1 : e1 ∈ l) (h2 : e2 ∈ l)
    (he : e1.2 = e2.2) : e1 = e2 :=
  List.inj_on_of_nodup_map h h1 h2 he

theorem level_nodup (side : Side) (hq : (queuedIds side).Nodup)
    (e : Price × Level) (he : e ∈ side) : e.2.orders.Nodup := by
  obtain ⟨s1, s2, rfl⟩ := List.append_of_mem he
  rw [queuedIds_append] at hq
  simp only [queuedIds] at hq
  have hsub : e.2.orders.Sublist (queuedIds s1 ++ (e.2.orders ++ queuedIds s2)) :=
    ((List.sublist_append_left _ _).trans (List.sublist_append_right _ _))
  exact hq.sublist hsub

theorem remove_from_side_self (side : Side) (nid : Nat) (nd : OrderNode)
    (L : Level) (hF : findL side nd.order.price = some L)
    (hkeys : (side.map Prod.fst).Nodup) :
    findL (remove_from_side side nid nd) nd.order.price =
      if L.orders.erase nid = [] then none
      else some
        { price := L.price,
          total_quantity := u64sub L.total_quantity nd.order.quantity,
          orders := L.orders.erase nid } := by
  by_cases hz : L.orders.erase nid = []
  · have hres : remove_from_side side nid nd = eraseL side nd.order.price := by
      simp only [remove_from_side, hF]
      simp [hz]
    rw [hres, if_pos hz]
    exact findL_eraseL_self _ _ _ hF hkeys
  · have hres : remove_from_side side nid nd = replaceL side nd.order.price
        { price := L.price,
          total_quantity := u64sub L.total_quantity nd.order.quantity,
          orders := L.orders.erase nid } := by
      simp only [remove_from_side, hF]
      simp [hz]
    rw [hres, if_neg hz]
    exact findL_replaceL_self _ _ L _ hF

theorem WF_cancel_order (b : OrderBook) (oid : Nat) (hwf : WF b) :
    WF (cancel_order b oid).2 := by
  cases hidx : lookupA b.order_lookup oid with
  | none =>
    rw [cancel_order_not_found b oid hidx]
    exact hwf
  | some nid =>
    obtain ⟨nd, hnd, hid⟩ := hwf.idxLive (oid, nid) (mem_of_lookupA_some _ _ _ hidx)
    dsimp only at hnd hid
    have hndmem : (nid, nd) ∈ b.nodes := mem_of_lookupA_some _ _ _ hnd
    obtain ⟨L, hfind, hmem⟩ := hwf.nodesHome (nid, nd) hndmem
    dsimp only at hfind hmem
    have hqty : nd.order.quantity < u64Mod := (hwf.nodesBound (nid, nd) hndmem).2
    have hnidlt : nid < b.alloc_count := (hwf.nodesBound (nid, nd) hndmem).1
    have hnidfree : nid ∉ b.free_list := by
      intro hc
      rw [(hwf.freeFresh nid hc).2] at hnd
      exact Option.noConfusion hnd
    cases hbe : nd.order.is_buy with
    | true =>
      rw [hbe] at hfind
      rw [if_pos rfl] at hfind
      rw [cancel_order_found_buy b oid nid nd hidx hnd hbe]
      have hQside : (queuedIds b.bid_levels).Nodup :=
        hwf.queuedNodup.sublist (List.sublist_append_left _ _)
      have hinbid : nid ∈ queuedIds b.bid_levels :=
        mem_queuedIds.mpr ⟨_, mem_of_findL_some _ _ _ hfind, hmem⟩
      have hnotask : nid ∉ queuedIds b.ask_levels := by
        intro hc
        exact (List.nodup_append.mp hwf.queuedNodup).2.2 hinbid hc
      have hperm := queuedIds_remove_from_side b.bid_levels nid nd L hfind hmem
      have hnodup2 : (nid :: queuedIds (remove_from_side b.bid_levels nid nd)).Nodup :=
        hperm.nodup_iff.mp hQside
      have hnotin : nid ∉ queuedIds (remove_from_side b.bid_levels nid nd) :=
        (List.nodup_cons.mp hnodup2).1
      refine ⟨?_, ?_, ?_, ?_, ?_, ?_, ?_, ?_, ?_, ?_, ?_⟩
      · exact sideWF_remove_from_side b.nodes true bidLt b.bid_levels nid nd L
          hwf.bidWF hQside hnd hqty hfind hmem
      · refine sideWF_congr b.nodes _ _ _ _ ?_ hwf.askWF
        intro m hm
        refine lookupA_eraseA_ne _ _ _ ?_
        rintro rfl
        exact hnotask hm
      · have hp2 := (hperm.append_right (queuedIds b.ask_levels)).nodup_iff.mp
          hwf.queuedNodup
        rw [List.cons_append, List.nodup_cons] at hp2
        exact hp2.2
      · exact hwf.nodesKeysNodup.sublist ((eraseA_sublist _ _).map Prod.fst)
      · intro e he
        exact hwf.nodesBound e ((eraseA_sublist _ _).subset he)
      · exact List.nodup_cons.mpr ⟨hnidfree, hwf.freeNodup⟩
      · intro m hm
        rcases List.mem_cons.mp hm with rfl | hm2
        · exact ⟨hnidlt, lookupA_eraseA_self _ _ hwf.nodesKeysNodup⟩
        · have hmne : m ≠ nid := by
            rintro rfl
            rw [(hwf.freeFresh m hm2).2] at hnd
            exact Option.noConfusion hnd
          refine ⟨(hwf.freeFresh m hm2).1, ?_⟩
          rw [lookupA_eraseA_ne _ _ _ hmne]
          exact (hwf.freeFresh m hm2).2
      · exact hwf.idxKeysNodup.sublist ((eraseA_sublist _ _).map Prod.fst)
      · exact hwf.idxValsNodup.sublist ((eraseA_sublist _ _).map Prod.snd)
      · intro e he
        obtain ⟨he2, hekey⟩ := mem_eraseA_ne_key _ _ hwf.idxKeysNodup e he
        obtain ⟨nd', hnd', hid'⟩ := hwf.idxLive e he2
        have hene : e.2 ≠ nid := by
          intro hc
          have : e = (oid, nid) := nodup_vals_inj _ hwf.idxValsNodup he2
            (mem_of_lookupA_some _ _ _ hidx) (by simpa using hc)
          exact hekey (by rw [this])
        exact ⟨nd', by rw [lookupA_eraseA_ne _ _ _ hene]; exact hnd', hid'⟩
      · intro e he
        obtain ⟨he2, hekey⟩ := mem_eraseA_ne_key _ _ hwf.nodesKeysNodup e he
        obtain ⟨L_e, hfind_e, hmem_e⟩ := hwf.nodesHome e he2
        split_ifs with hsel
        · rw [if_pos hsel] at hfind_e
          by_cases hp : e.2.order.price = nd.order.price
          · rw [hp] at hfind_e
            have hLL : L_e = L := by
              rw [hfind_e] at hfind
              exact Option.some.inj hfind
            subst hLL
            have hLnodup : L_e.orders.Nodup :=
              level_nodup b.bid_levels hQside _ (mem_of_findL_some _ _ _ hfind_e)
            have hin : e.1 ∈ L_e.orders.erase nid :=
              (List.Nodup.mem_erase_iff hLnodup).mpr ⟨hekey, hmem_e⟩
            have hz : L_e.orders.erase nid ≠ [] := by
              intro hc
              rw [hc] at hin
              exact List.not_mem_nil _ hin
            have hkeysnod : (b.bid_levels.map Prod.fst).Nodup :=
              nodup_keys_of_pairwise bidLt bidLt_irrefl _ hwf.bidWF.1
            have := remove_from_side_self b.bid_levels nid nd L_e hfind hkeysnod
            rw [if_neg hz] at this
            refine ⟨_, by rw [hp]; exact this, hin⟩
          · refine ⟨L_e, ?_, hmem_e⟩
            rw [findL_remove_from_side_ne _ _ _ _ hp]
            exact hfind_e
        · rw [if_neg hsel] at hfind_e
          exact ⟨L_e, hfind_e, hmem_e⟩
    | false =>
      rw [hbe] at hfind
      rw [if_neg (by simp)] at hfind
      rw [cancel_order_found_sell b oid nid nd hidx hnd hbe]
      have hQside : (queuedIds b.ask_levels).Nodup :=
        hwf.queuedNodup.sublist (List.sublist_append_right _ _)
      have hinask : nid ∈ queuedIds b.ask_levels :=
        mem_queuedIds.mpr ⟨_, mem_of_findL_some _ _ _ hfind, hmem⟩
      have hnotbid : nid ∉ queuedIds b.bid_levels := by
        intro hc
        exact (List.nodup_append.mp hwf.queuedNodup).2.2 hc hinask
      have hperm := queuedIds_remove_from_side b.ask_levels nid nd L hfind hmem
      have hnodup2 : (nid :: queuedIds (remove_from_side b.ask_levels nid nd)).Nodup :=
        hperm.nodup_iff.mp hQside
      have hnotin : nid ∉ queuedIds (remove_from_side b.ask_levels nid nd) :=
        (List.nodup_cons.mp hnodup2).1
      refine ⟨?_, ?_, ?_, ?_, ?_, ?_, ?_, ?_, ?_, ?_, ?_⟩
      · refine sideWF_congr b.nodes _ _ _ _ ?_ hwf.bidWF
        intro m hm
        refine lookupA_eraseA_ne _ _ _ ?_
        rintro rfl
        exact hnotbid hm
      · exact sideWF_remove_from_side b.nodes false askLt b.ask_levels nid nd L
          hwf.askWF hQside hnd hqty hfind hmem
      · have hp2 := ((hperm.append_left (queuedIds b.bid_levels)).trans
          List.perm_middle).nodup_iff.mp hwf.queuedNodup
        rw [List.nodup_cons] at hp2
        exact hp2.2
      · exact hwf.nodesKeysNodup.sublist ((eraseA_sublist _ _).map Prod.fst)
      · intro e he
        exact hwf.nodesBound e ((eraseA_sublist _ _).subset he)
      · exact List.nodup_cons.mpr ⟨hnidfree, hwf.freeNodup⟩
      · intro m hm
        rcases List.mem_cons.mp hm with rfl | hm2
        · exact ⟨hnidlt, lookupA_eraseA_self _ _ hwf.nodesKeysNodup⟩
        · have hmne : m ≠ nid := by
            rintro rfl
            rw [(hwf.freeFresh m hm2).2] at hnd
            exact Option.noConfusion hnd
          refine ⟨(hwf.freeFresh m hm2).1, ?_⟩
          rw [lookupA_eraseA_ne _ _ _ hmne]
          exact (hwf.freeFresh m hm2).2
      · exact hwf.idxKeysNodup.sublist ((eraseA_sublist _ _).map Prod.fst)
      · exact hwf.idxValsNodup.sublist ((eraseA_sublist _ _).map Prod.snd)
      · intro e he
        obtain ⟨he2, hekey⟩ := mem_eraseA_ne_key _ _ hwf.idxKeysNodup e he
        obtain ⟨nd', hnd', hid'⟩ := hwf.idxLive e he2
        have hene : e.2 ≠ nid := by
          intro hc
          have : e = (oid, nid) := nodup_vals_inj _ hwf.idxValsNodup he2
            (mem_of_lookupA_some _ _ _ hidx) (by simpa using hc)
          exact hekey (by rw [this])
        exact ⟨nd', by rw [lookupA_eraseA_ne _ _ _ hene]; exact hnd', hid'⟩
      · intro e he
        obtain ⟨he2, hekey⟩ := mem_eraseA_ne_key _ _ hwf.nodesKeysNodup e he
        obtain ⟨L_e, hfind_e, hmem_e⟩ := hwf.nodesHome e he2
        split_ifs with hsel
        · rw [if_pos hsel] at hfind_e
          exact ⟨L_e, hfind_e, hmem_e⟩
        · rw [if_neg hsel] at hfind_e
          by_cases hp : e.2.order.price = nd.order.price
          · rw [hp] at hfind_e
            have hLL : L_e = L := by
              rw [hfind_e] at hfind
              exact Option.some.inj hfind
            subst hLL
            have hLnodup : L_e.orders.Nodup :=
              level_nodup b.ask_levels hQside _ (mem_of_findL_some _ _ _ hfind_e)
            have hin : e.1 ∈ L_e.orders.erase nid :=
              (List.Nodup.mem_erase_iff hLnodup).mpr ⟨hekey, hmem_e⟩
            have hz : L_e.orders.erase nid ≠ [] := by
              intro hc
              rw [hc] at hin
              exact List.not_mem_nil _ hin
            have hkeysnod : (b.ask_levels.map Prod.fst).Nodup :=
              nodup_keys_of_pairwise askLt askLt_irrefl _ hwf.askWF.1
            have := remove_from_side_self b.ask_levels nid nd L_e hfind hkeysnod
            rw [if_neg hz] at this
            refine ⟨_, by rw [hp]; exact this, hin⟩
          · refine ⟨L_e, ?_, hmem_e⟩
            rw [findL_remove_from_side_ne _ _ _ _ hp]
            exact hfind_e

theorem WF_set_amends (b : OrderBook) (x : Nat) (hwf : WF b) :
    WF { b with total_amends := x } :=
  ⟨hwf.bidWF, hwf.askWF, hwf.queuedNodup, hwf.nodesKeysNodup, hwf.nodesBound,
   hwf.freeNodup, hwf.freeFresh, hwf.idxKeysNodup, hwf.idxValsNodup,
   hwf.idxLive, hwf.nodesHome⟩

theorem WF_amend_order (b : OrderBook) (oid : Nat) (np : Price) (nq ts : Nat)
    (hwf : WF b) (hq : nq < u64Mod) : WF (amend_order b oid np nq ts).2 := by
  cases hidx : lookupA b.order_lookup oid with
  | none =>
    rw [amend_order_not_found b oid np nq ts hidx]
    exact hwf
  | some nid =>
    obtain ⟨nd, hnd, hid⟩ := hwf.idxLive (oid, nid) (mem_of_lookupA_some _ _ _ hidx)
    dsimp only at hnd hid
    have hndmem : (nid, nd) ∈ b.nodes := mem_of_lookupA_some _ _ _ hnd
    by_cases htol : |nd.order.price - np| > amendTol
    · rw [amend_order_price_change b oid nid nd np nq ts hidx hnd htol]
      exact WF_set_amends _ _ (WF_add_order _ _ (WF_cancel_order b oid hwf) hq)
    · obtain ⟨L, hfind, hmem⟩ := hwf.nodesHome (nid, nd) hndmem
      dsimp only at hfind hmem
      have hqty : nd.order.quantity < u64Mod := (hwf.nodesBound (nid, nd) hndmem).2
      have hnidlt : nid < b.alloc_count := (hwf.nodesBound (nid, nd) hndmem).1
      cases hbe : nd.order.is_buy with
      | true =>
        rw [hbe] at hfind
        rw [if_pos rfl] at hfind
        rw [amend_order_qty_buy b oid nid nd np nq ts hidx hnd htol hbe]
        rw [update_qty_snd b.bid_levels nd nq L hfind]
        have hQside : (queuedIds b.bid_levels).Nodup :=
          hwf.queuedNodup.sublist (List.sublist_append_left _ _)
        have hinbid : nid ∈ queuedIds b.bid_levels :=
          mem_queuedIds.mpr ⟨_, mem_of_findL_some _ _ _ hfind, hmem⟩
        have hnotask : nid ∉ queuedIds b.ask_levels := fun hc =>
          (List.nodup_append.mp hwf.queuedNodup).2.2 hinbid hc
        refine ⟨?_, ?_, ?_, ?_, ?_, ?_, ?_, ?_, ?_, ?_, ?_⟩
        · exact sideWF_update_qty b.nodes true bidLt b.bid_levels nid nd nq L
            hwf.bidWF hQside hnd hqty hbe hfind hmem
        · refine sideWF_congr b.nodes _ _ _ _ ?_ hwf.askWF
          intro m hm
          refine lookupA_setA_ne _ _ _ _ ?_
          rintro rfl
          exact hnotask hm
        · rw [queuedIds_update_qty]
          exact hwf.queuedNodup
        · rw [keys_setA]
          exact hwf.nodesKeysNodup
        · intro e he
          rcases mem_setA _ _ _ _ he with rfl | he2
          · exact ⟨hnidlt, hq⟩
          · exact hwf.nodesBound e he2
        · exact hwf.freeNodup
        · intro m hm
          have hmne : m ≠ nid := by
            rintro rfl
            rw [(hwf.freeFresh m hm).2] at hnd
            exact Option.noConfusion hnd
          refine ⟨(hwf.freeFresh m hm).1, ?_⟩
          rw [lookupA_setA_ne _ _ _ _ hmne]
          exact (hwf.freeFresh m hm).2
        · exact hwf.idxKeysNodup
        · exact hwf.idxValsNodup
        · intro e he
          obtain ⟨nd', hnd', hid'⟩ := hwf.idxLive e he
          by_cases hene : e.2 = nid
          · have heq : e = (oid, nid) := nodup_vals_inj _ hwf.idxValsNodup he
              (mem_of_lookupA_some _ _ _ hidx) (by simpa using hene)
            refine ⟨⟨{ nd.order with quantity := nq }⟩, ?_, ?_⟩
            · rw [heq]
              dsimp only
              exact lookupA_setA_self _ _ _ (by rw [hnd]; simp)
            · rw [heq]
              dsimp only
              exact hid
          · exact ⟨nd', by rw [lookupA_setA_ne _ _ _ _ hene]; exact hnd', hid'⟩
        · intro e he
          dsimp only at he ⊢
          rcases mem_setA _ _ _ _ he with rfl | he2
          · dsimp only
            rw [hbe]
            rw [if_pos rfl]
            exact ⟨_, findL_update_qty_self b.bid_levels nd nq L hfind, hmem⟩
          · obtain ⟨L_e, hfind_e, hmem_e⟩ := hwf.nodesHome e he2
            split_ifs with hsel
            · rw [if_pos hsel] at hfind_e
              by_cases hp : e.2.order.price = nd.order.price
              · rw [hp] at hfind_e
                have hLL : L_e = L := by
                  rw [hfind_e] at hfind
                  exact Option.some.inj hfind
                subst hLL
                have hres := findL_update_qty_self b.bid_levels nd nq L_e hfind
                rw [← hp] at hres
                exact ⟨_, hres, hmem_e⟩
              · refine ⟨L_e, ?_, hmem_e⟩
                rw [findL_update_qty_ne _ _ _ _ hp]
                exact hfind_e
            · rw [if_neg hsel] at hfind_e
              exact ⟨L_e, hfind_e, hmem_e⟩
      | false =>
        rw [hbe] at hfind
        rw [if_neg (by simp)] at hfind
        rw [amend_order_qty_sell b oid nid nd np nq ts hidx hnd htol hbe]
        rw [update_qty_snd b.ask_levels nd nq L hfind]
        have hQside : (queuedIds b.ask_levels).Nodup :=
          hwf.queuedNodup.sublist (List.sublist_append_right _ _)
        have hinask : nid ∈ queuedIds b.ask_levels :=
          mem_queuedIds.mpr ⟨_, mem_of_findL_some _ _ _ hfind, hmem⟩
        have hnotbid : nid ∉ queuedIds b.bid_levels := fun hc =>
          (List.nodup_append.mp hwf.queuedNodup).2.2 hc hinask
        refine ⟨?_, ?_, ?_, ?_, ?_, ?_, ?_, ?_, ?_, ?_, ?_⟩
        · refine sideWF_congr b.nodes _ _ _ _ ?_ hwf.bidWF
          intro m hm
          refine lookupA_setA_ne _ _ _ _ ?_
          rintro rfl
          exact hnotbid hm
        · exact sideWF_update_qty b.nodes false askLt b.ask_levels nid nd nq L
            hwf.askWF hQside hnd hqty hbe hfind hmem
        · rw [queuedIds_update_qty]
          exact hwf.queuedNodup
        · rw [keys_setA]
          exact hwf.nodesKeysNodup
        · intro e he
          rcases mem_setA _ _ _ _ he with rfl | he2
          · exact ⟨hnidlt, hq⟩
          · exact hwf.nodesBound e he2
        · exact hwf.freeNodup
        · intro m hm
          have hmne : m ≠ nid := by
            rintro rfl
            rw [(hwf.freeFresh m hm).2] at hnd
            exact Option.noConfusion hnd
          refine ⟨(hwf.freeFresh m hm).1, ?_⟩
          rw [lookupA_setA_ne _ _ _ _ hmne]
          exact (hwf.freeFresh m hm).2
        · exact hwf.idxKeysNodup
        · exact hwf.idxValsNodup
        · intro e he
          obtain ⟨nd', hnd', hid'⟩ := hwf.idxLive e he
          by_cases hene : e.2 = nid
          · have heq : e = (oid, nid) := nodup_vals_inj _ hwf.idxValsNodup he
              (mem_of_lookupA_some _ _ _ hidx) (by simpa using hene)
            refine ⟨⟨{ nd.order with quantity := nq }⟩, ?_, ?_⟩
            · rw [heq]
              dsimp only
              exact lookupA_setA_self _ _ _ (by rw [hnd]; simp)
            · rw [heq]
              dsimp only
              exact hid
          · exact ⟨nd', by rw [lookupA_setA_ne _ _ _ _ hene]; exact hnd', hid'⟩
        · intro e he
          dsimp only at he ⊢
          rcases mem_setA _ _ _ _ he with rfl | he2
          · dsimp only
            rw [hbe]
            rw [if_neg (by simp)]
            exact ⟨_, findL_update_qty_self b.ask_levels nd nq L hfind, hmem⟩
          · obtain ⟨L_e, hfind_e, hmem_e⟩ := hwf.nodesHome e he2
            split_ifs with hsel
            · rw [if_pos hsel] at hfind_e
              exact ⟨L_e, hfind_e, hmem_e⟩
            · rw [if_neg hsel] at hfind_e
              by_cases hp : e.2.order.price = nd.order.price
              · rw [hp] at hfind_e
                have hLL : L_e = L := by
                  rw [hfind_e] at hfind
                  exact Option.some.inj hfind
                subst hLL
                have hres := findL_update_qty_self b.ask_levels nd nq L_e hfind
                rw [← hp] at hres
                exact ⟨_, hres, hmem_e⟩
              · refine ⟨L_e, ?_, hmem_e⟩
                rw [findL_update_qty_ne _ _ _ _ hp]
                exact hfind_e

theorem WF_emptyBook : WF emptyBook := by
  refine ⟨⟨List.Pairwise.nil, ?_⟩, ⟨List.Pairwise.nil, ?_⟩, ?_, ?_, ?_, ?_, ?_,
    ?_, ?_, ?_, ?_⟩ <;> simp [emptyBook, queuedIds]

/-- Every reachable state satisfies the global invariant. -/
theorem Reachable.wf {b : OrderBook} (h : Reachable b) : WF b := by
  induction h with
  | empty => exact WF_emptyBook
  | step hb hop ih =>
    rename_i b1 op
    cases op with
    | add o => exact WF_add_order b1 o ih hop
    | cancel oid => exact WF_cancel_order b1 oid ih
    | amend oid p q ts => exact WF_amend_order b1 oid p q ts ih hop

/-! ## Claim-level supporting lemmas -/

theorem ne_of_tol {a b : Price} (h : |a - b| > amendTol) : a ≠ b := by
  rintro rfl
  simp only [sub_self, abs_zero] at h
  have hp : (0:ℚ) < amendTol := by norm_num [amendTol]
  exact absurd h (by linarith)

theorem erase_append_self (l : List Nat) (a : Nat) (h : a ∉ l) :
    (l ++ [a]).erase a = l := by
  induction l with
  | nil => simp
  | cons x t ih =>
    simp only [List.mem_cons] at h
    push_neg at h
    have hxa : x ≠ a := Ne.symm h.1
    rw [List.cons_append, List.erase_cons]
    simp [hxa, ih h.2]

theorem eraseA_insertA_fresh {α : Type} (l : List (Nat × α)) (k : Nat) (v : α)
    (h : k ∉ l.map Prod.fst) : eraseA (insertA l k v) k = l := by
  induction l with
  | nil => simp [insertA, eraseA]
  | cons e t ih =>
    obtain ⟨k0, w⟩ := e
    simp only [List.map_cons, List.mem_cons] at h
    push_neg at h
    simp [insertA, eraseA, Ne.symm h.1, ih h.2]

/-- Adding a fresh node to a side and removing it again restores the side
exactly. -/
theorem add_remove_roundtrip
    (nodes : List (Nat × OrderNode)) (isBuy : Bool) (lt : Price → Price → Bool)
    (hirr : ∀ a, lt a a = false)
    (side : Side) (nid : Nat) (nd : OrderNode)
    (hside : sideWF nodes isBuy lt side)
    (hfresh : nid ∉ queuedIds side)
    (hagg : nd.order.quantity < u64Mod) :
    remove_from_side (add_to_side lt side nid nd) nid nd = side := by
  have hfreshq : nid ∉ queueOf side nd.order.price := by
    intro hc
    apply hfresh
    unfold queueOf at hc
    cases hF : findL side nd.order.price with
    | none => rw [hF] at hc; simp at hc
    | some L =>
      rw [hF] at hc
      exact mem_queuedIds.mpr ⟨_, mem_of_findL_some _ _ _ hF, hc⟩
  have hq := add_to_side_queue lt hirr side nid nd
  cases hF : findL side nd.order.price with
  | none =>
    have hqOf : queueOf side nd.order.price = [] := by simp [queueOf, hF]
    rw [hqOf] at hq
    simp only [List.nil_append] at hq
    have herase : ([nid] : List Nat).erase nid = [] := by simp
    have hres : remove_from_side (add_to_side lt side nid nd) nid nd =
        eraseL (add_to_side lt side nid nd) nd.order.price := by
      simp only [remove_from_side, hq]
      simp [herase]
    rw [hres]
    simp only [add_to_side, hF]
    exact eraseL_insertSorted lt side _ _ (not_mem_of_findL_none _ _ hF)
  | some L =>
    obtain ⟨hLp, hLne, hLsum, _⟩ := hside.2 _ (mem_of_findL_some _ _ _ hF)
    dsimp only at hLp hLne hLsum
    have hqOf : queueOf side nd.order.price = L.orders := by simp [queueOf, hF]
    rw [hqOf] at hq
    have herase : (L.orders ++ [nid]).erase nid = L.orders :=
      erase_append_self _ _ (by rw [← hqOf]; exact hfreshq)
    have haggU : L.total_quantity < u64Mod := by
      rw [hLsum]
      exact Nat.mod_lt _ u64Mod_pos
    have hres : remove_from_side (add_to_side lt side nid nd) nid nd =
        replaceL (add_to_side lt side nid nd) nd.order.price
          (Level.mk nd.order.price
            (u64sub (u64add (aggOf side nd.order.price) nd.order.quantity)
              nd.order.quantity)
            L.orders) := by
      simp only [remove_from_side, hq]
      rw [herase]
      simp [if_neg hLne, hLne]
    rw [hres]
    have haggOf : aggOf side nd.order.price = L.total_quantity := by
      simp [aggOf, hF]
    rw [haggOf, u64sub_u64add _ _ haggU hagg]
    have hLev : Level.mk nd.order.price L.total_quantity L.orders = L := by
      rw [← hLp]
    rw [hLev]
    simp only [add_to_side, hF]
    rw [replaceL_replaceL]
    exact replaceL_cancel side nd.order.price L hF

/-- Effect of `add_order` on every queue in the book. -/
theorem queueAt_add_order (b : OrderBook) (o : Order) (isBuy : Bool) (p : Price) :
    queueAt (add_order b o) isBuy p =
      if isBuy = o.is_buy ∧ p = o.price then
        queueAt b isBuy p ++ [(allocate b).1]
      else queueAt b isBuy p := by
  cases hbuy : o.is_buy with
  | true =>
    rw [add_order_buy b o hbuy]
    cases isBuy with
    | true =>
      have hq := add_to_side_queue bidLt bidLt_irrefl b.bid_levels
        (allocate b).1 (⟨o⟩ : OrderNode)
      dsimp only at hq
      by_cases hp : p = o.price
      · subst hp
        simp [queueAt, sideOf, allocate_bid, queueOf, hq]
      · have hne := findL_add_to_side_ne bidLt b.bid_levels (allocate b).1
          (⟨o⟩ : OrderNode) p hp
        simp [queueAt, sideOf, allocate_bid, queueOf, hne, hp]
    | false =>
      simp [queueAt, sideOf, allocate_ask]
  | false =>
    rw [add_order_sell b o hbuy]
    cases isBuy with
    | false =>
      have hq := add_to_side_queue askLt askLt_irrefl b.ask_levels
        (allocate b).1 (⟨o⟩ : OrderNode)
      dsimp only at hq
      by_cases hp : p = o.price
      · subst hp
        simp [queueAt, sideOf, allocate_ask, queueOf, hq]
      · have hne := findL_add_to_side_ne askLt b.ask_levels (allocate b).1
          (⟨o⟩ : OrderNode) p hp
        simp [queueAt, sideOf, allocate_ask, queueOf, hne, hp]
    | true =>
      simp [queueAt, sideOf, allocate_bid]

/-- Effect of a successful `cancel_order` on every queue in the book. -/
theorem queueAt_cancel_found (b : OrderBook) (oid nid : Nat) (nd : OrderNode)
    (hwf : WF b)
    (hidx : lookupA b.order_lookup oid = some nid)
    (hnd : lookupA b.nodes nid = some nd)
    (isBuy : Bool) (p : Price) :
    queueAt (cancel_order b oid).2 isBuy p =
      if isBuy = nd.order.is_buy ∧ p = nd.order.price then
        (queueAt b isBuy p).erase nid
      else queueAt b isBuy p := by
  obtain ⟨L, hfind, hmem⟩ := hwf.nodesHome (nid, nd) (mem_of_lookupA_some _ _ _ hnd)
  dsimp only at hfind hmem
  cases hbe : nd.order.is_buy with
  | true =>
    rw [hbe, if_pos rfl] at hfind
    rw [cancel_order_found_buy b oid nid nd hidx hnd hbe]
    have hkeysnod : (b.bid_levels.map Prod.fst).Nodup :=
      nodup_keys_of_pairwise bidLt bidLt_irrefl _ hwf.bidWF.1
    cases isBuy with
    | true =>
      by_cases hp : p = nd.order.price
      · subst hp
        have hself := remove_from_side_self b.bid_levels nid nd L hfind hkeysnod
        by_cases hz : L.orders.erase nid = []
        · rw [if_pos hz] at hself
          simp [queueAt, sideOf, queueOf, hself, hfind, hz]
        · rw [if_neg hz] at hself
          simp [queueAt, sideOf, queueOf, hself, hfind]
      · simp [queueAt, sideOf, queueOf, findL_remove_from_side_ne _ _ _ _ hp, hp]
    | false =>
      simp [queueAt, sideOf]
  | false =>
    rw [hbe, if_neg (by simp)] at hfind
    rw [cancel_order_found_sell b oid nid nd hidx hnd hbe]
    have hkeysnod : (b.ask_levels.map Prod.fst).Nodup :=
      nodup_keys_of_pairwise askLt askLt_irrefl _ hwf.askWF.1
    cases isBuy with
    | false =>
      by_cases hp : p = nd.order.price
      · subst hp
        have hself := remove_from_side_self b.ask_levels nid nd L hfind hkeysnod
        by_cases hz : L.orders.erase nid = []
        · rw [if_pos hz] at hself
          simp [queueAt, sideOf, queueOf, hself, hfind, hz]
        · rw [if_neg hz] at hself
          simp [queueAt, sideOf, queueOf, hself, hfind]
      · simp [queueAt, sideOf, queueOf, findL_remove_from_side_ne _ _ _ _ hp, hp]
    | true =>
      simp [queueAt, sideOf]

/-- An in-place quantity update leaves every queue unchanged. -/
theorem queueOf_update_qty (side : Side) (nd : OrderNode) (nq : Nat) (p : Price) :
    queueOf ((update_quantity_in_place side nd nq).1) p = queueOf side p := by
  by_cases hp : p = nd.order.price
  · subst hp
    cases hF : findL side nd.order.price with
    | none => simp [update_quantity_in_place, hF]
    | some L =>
      rw [queueOf, findL_update_qty_self side nd nq L hF]
      simp [queueOf, hF]
  · rw [queueOf, findL_update_qty_ne side nd nq p hp]
    rfl

theorem add_order_counters (b : OrderBook) (o : Order) :
    (add_order b o).total_orders = b.total_orders + 1 ∧
    (add_order b o).total_cancels = b.total_cancels ∧
    (add_order b o).total_amends = b.total_amends := by
  cases hbuy : o.is_buy with
  | true =>
    rw [add_order_buy b o hbuy]
    exact ⟨by simp [allocate_orders], by simp [allocate_cancels],
      by simp [allocate_amends]⟩
  | false =>
    rw [add_order_sell b o hbuy]
    exact ⟨by simp [allocate_orders], by simp [allocate_cancels],
      by simp [allocate_amends]⟩

theorem cancel_order_counters (b : OrderBook) (oid nid : Nat) (nd : OrderNode)
    (hidx : lookupA b.order_lookup oid = some nid)
    (hnd : lookupA b.nodes nid = some nd) :
    (cancel_order b oid).2.total_orders = b.total_orders ∧
    (cancel_order b oid).2.total_cancels = b.total_cancels + 1 ∧
    (cancel_order b oid).2.total_amends = b.total_amends := by
  cases hbe : nd.order.is_buy with
  | true =>
    rw [cancel_order_found_buy b oid nid nd hidx hnd hbe]
    exact ⟨rfl, rfl, rfl⟩
  | false =>
    rw [cancel_order_found_sell b oid nid nd hidx hnd hbe]
    exact ⟨rfl, rfl, rfl⟩

theorem u64_qty_update_modeq (A q nq : Nat) :
    Int.ModEq (u64Mod : ℤ) (u64add (u64sub A q) nq : ℤ) ((A : ℤ) + nq - q) := by
  unfold Int.ModEq u64add u64sub u64Mod
  norm_num
  omega

/-! ## Example books used as concrete inputs -/

/-- A small reachable book: one buy order 5@100. -/
def exBook1 : OrderBook := add_order emptyBook ⟨1, true, 100, 5, 7⟩

theorem exBook1_reachable : Reachable exBook1 :=
  @Reachable.step emptyBook (BookOp.add ⟨1, true, 100, 5, 7⟩) Reachable.empty
    (by norm_num [opWF, u64Mod])

/-- A reachable book whose single bid level's u64 aggregate has wrapped:
two buy orders of 2^63 each at price 1. -/
def exOvf : OrderBook :=
  add_order (add_order emptyBook ⟨1, true, 1, 2 ^ 63, 0⟩) ⟨2, true, 1, 2 ^ 63, 0⟩

theorem exOvf_reachable : Reachable exOvf :=
  @Reachable.step (add_order emptyBook ⟨1, true, 1, 2 ^ 63, 0⟩)
    (BookOp.add ⟨2, true, 1, 2 ^ 63, 0⟩)
    (@Reachable.step emptyBook (BookOp.add ⟨1, true, 1, 2 ^ 63, 0⟩)
      Reachable.empty (by norm_num [opWF, u64Mod]))
    (by norm_num [opWF, u64Mod])

/-- A reachable book with one buy order resting at price 0. -/
def c2Book : OrderBook := add_order emptyBook ⟨1, true, 0, 5, 0⟩

theorem c2Book_reachable : Reachable c2Book :=
  @Reachable.step emptyBook (BookOp.add ⟨1, true, 0, 5, 0⟩) Reachable.empty
    (by norm_num [opWF, u64Mod])

/-! ## Claims -/

theorem side_agg_sum_mod (nodes : List (Nat × OrderNode)) (side : Side)
    (h : ∀ e ∈ side,
      e.2.total_quantity = (e.2.orders.map (qtyOf nodes)).sum % u64Mod) :
    (side.map fun e => e.2.total_quantity).sum % u64Mod =
      ((queuedIds side).map (qtyOf nodes)).sum % u64Mod := by
  induction side with
  | nil => rfl
  | cons e t ih =>
    have he := h e (List.mem_cons_self _ _)
    have ht := ih fun e' he' => h e' (List.mem_cons_of_mem _ he')
    simp only [List.map_cons, List.sum_cons, queuedIds, List.map_append,
      List.sum_append]
    rw [he]
    exact (Nat.mod_modEq _ _).add ht

/-- C1 (counterexample): on the reachable book `exOvf` (two buy orders of
2^63 at price 1) the stored aggregate of level 1 is 0 while the sum of the
queued records' quantities is 2^64 — the aggregate does not equal the sum,
because the C++ `uint64_t` addition wrapped. -/
theorem C1_counterexample :
    Reachable exOvf ∧
    aggOf exOvf.bid_levels 1 = 0 ∧
    ((queueOf exOvf.bid_levels 1).map (qtyOf exOvf.nodes)).sum = 2 ^ 64 ∧
    aggOf exOvf.bid_levels 1 ≠
      ((queueOf exOvf.bid_levels 1).map (qtyOf exOvf.nodes)).sum := by
  refine ⟨exOvf_reachable, ?_, ?_, ?_⟩ <;>
    norm_num [exOvf, add_order, allocate, emptyBook, add_to_side, findL,
      insertSorted, insertA, lookupA, aggOf, queueOf, qtyOf, u64add, u64Mod]

/-- C1 (amended): in every reachable state, each price level's stored
aggregate equals the sum of its queued records' quantities reduced modulo
2^64 (the `uint64_t` arithmetic of the source); summed over a side this
equals, modulo 2^64, the sum of the quantities of all resting orders on
that side; and no level with an empty queue is present in either side
map. -/
theorem C1_invariant (b : OrderBook) (h : Reachable b) :
    (∀ e ∈ b.bid_levels,
      e.2.total_quantity = (e.2.orders.map (qtyOf b.nodes)).sum % u64Mod ∧
      e.2.orders ≠ []) ∧
    (∀ e ∈ b.ask_levels,
      e.2.total_quantity = (e.2.orders.map (qtyOf b.nodes)).sum % u64Mod ∧
      e.2.orders ≠ []) ∧
    (b.bid_levels.map fun e => e.2.total_quantity).sum % u64Mod =
      ((queuedIds b.bid_levels).map (qtyOf b.nodes)).sum % u64Mod ∧
    (b.ask_levels.map fun e => e.2.total_quantity).sum % u64Mod =
      ((queuedIds b.ask_levels).map (qtyOf b.nodes)).sum % u64Mod := by
  have hwf := h.wf
  refine ⟨?_, ?_, ?_, ?_⟩
  · intro e he
    obtain ⟨_, hne, hsum, _⟩ := hwf.bidWF.2 e he
    exact ⟨hsum, hne⟩
  · intro e he
    obtain ⟨_, hne, hsum, _⟩ := hwf.askWF.2 e he
    exact ⟨hsum, hne⟩
  · exact side_agg_sum_mod b.nodes b.bid_levels fun e he =>
      (hwf.bidWF.2 e he).2.2.1
  · exact side_agg_sum_mod b.nodes b.ask_levels fun e he =>
      (hwf.askWF.2 e he).2.2.1

/-- C1 witness: the amended invariant instantiated at the concrete
reachable book `exBook1`. -/
theorem C1_invariant_witness :
    (∀ e ∈ exBook1.bid_levels,
      e.2.total_quantity = (e.2.orders.map (qtyOf exBook1.nodes)).sum % u64Mod ∧
      e.2.orders ≠ []) ∧
    (∀ e ∈ exBook1.ask_levels,
      e.2.total_quantity = (e.2.orders.map (qtyOf exBook1.nodes)).sum % u64Mod ∧
      e.2.orders ≠ []) ∧
    (exBook1.bid_levels.map fun e => e.2.total_quantity).sum % u64Mod =
      ((queuedIds exBook1.bid_levels).map (qtyOf exBook1.nodes)).sum % u64Mod ∧
    (exBook1.ask_levels.map fun e => e.2.total_quantity).sum % u64Mod =
      ((queuedIds exBook1.ask_levels).map (qtyOf exBook1.nodes)).sum % u64Mod :=
  C1_invariant exBook1 exBook1_reachable

/-- C2 (counterexample): `get_best_prices` does not return an explicit
"no price" value for an empty side: the empty book and the reachable book
`c2Book` (which has a non-empty bid side with best bid 0) produce the very
same return value, so the 0.0 returned for an empty bid side is an
in-range numeric sentinel, not a distinguishable "none". -/
theorem C2_counterexample :
    Reachable c2Book ∧ c2Book.bid_levels ≠ [] ∧ emptyBook.bid_levels = [] ∧
    get_best_prices c2Book = get_best_prices emptyBook := by
  refine ⟨c2Book_reachable, ?_, rfl, ?_⟩ <;>
    norm_num [c2Book, add_order, allocate, emptyBook, add_to_side, findL,
      insertSorted, insertA, get_best_prices]

/-- C2 (amended): `get_best_prices` returns the numeric sentinel 0.0 for an
empty bid side and DBL_MAX for an empty ask side; on a non-empty side it
returns that side's best price (the highest bid / lowest ask key of the
side map). -/
theorem C2_best_prices (b : OrderBook) (hwf : WF b) :
    (b.bid_levels = [] → (get_best_prices b).1 = 0) ∧
    (b.ask_levels = [] → (get_best_prices b).2 = dblMax) ∧
    (b.bid_levels ≠ [] →
      (get_best_prices b).1 ∈ b.bid_levels.map Prod.fst ∧
      ∀ p ∈ b.bid_levels.map Prod.fst, p ≤ (get_best_prices b).1) ∧
    (b.ask_levels ≠ [] →
      (get_best_prices b).2 ∈ b.ask_levels.map Prod.fst ∧
      ∀ p ∈ b.ask_levels.map Prod.fst, (get_best_prices b).2 ≤ p) := by
  refine ⟨?_, ?_, ?_, ?_⟩
  · intro h
    simp [get_best_prices, h]
  · intro h
    simp [get_best_prices, h]
  · intro h
    cases hb : b.bid_levels with
    | nil => exact absurd hb h
    | cons e t =>
      obtain ⟨p0, L0⟩ := e
      have hpw := hwf.bidWF.1
      rw [hb, List.pairwise_cons] at hpw
      refine ⟨by simp [get_best_prices, hb], ?_⟩
      intro p hp
      simp only [List.map_cons, List.mem_cons] at hp
      simp only [get_best_prices, hb]
      rcases hp with rfl | hp
      · exact le_refl _
      · rcases List.mem_map.mp hp with ⟨e', he', rfl⟩
        have := hpw.1 e' he'
        simp only [bidLt, decide_eq_true_eq] at this
        exact le_of_lt this
  · intro h
    cases hb : b.ask_levels with
    | nil => exact absurd hb h
    | cons e t =>
      obtain ⟨p0, L0⟩ := e
      have hpw := hwf.askWF.1
      rw [hb, List.pairwise_cons] at hpw
      refine ⟨by simp [get_best_prices, hb], ?_⟩
      intro p hp
      simp only [List.map_cons, List.mem_cons] at hp
      simp only [get_best_prices, hb]
      rcases hp with rfl | hp
      · exact le_refl _
      · rcases List.mem_map.mp hp with ⟨e', he', rfl⟩
        have := hpw.1 e' he'
        simp only [askLt, decide_eq_true_eq] at this
        exact le_of_lt this

/-- C2 witness: the amended best-price description instantiated at the
concrete reachable book `c2Book`. -/
theorem C2_best_prices_witness :
    (c2Book.bid_levels = [] → (get_best_prices c2Book).1 = 0) ∧
    (c2Book.ask_levels = [] → (get_best_prices c2Book).2 = dblMax) ∧
    (c2Book.bid_levels ≠ [] →
      (get_best_prices c2Book).1 ∈ c2Book.bid_levels.map Prod.fst ∧
      ∀ p ∈ c2Book.bid_levels.map Prod.fst, p ≤ (get_best_prices c2Book).1) ∧
    (c2Book.ask_levels ≠ [] →
      (get_best_prices c2Book).2 ∈ c2Book.ask_levels.map Prod.fst ∧
      ∀ p ∈ c2Book.ask_levels.map Prod.fst, (get_best_prices c2Book).2 ≤ p) :=
  C2_best_prices c2Book c2Book_reachable.wf

/-- C3: cancelling or amending an unknown identifier returns false and
leaves the whole book state unchanged, and cancelling the same resting
identifier twice returns true then false with no mutation on the second
call. -/
theorem C3_not_found (b : OrderBook) (oid : Nat) (np : Price) (nq ts : Nat)
    (hwf : WF b) :
    (lookupA b.order_lookup oid = none →
      cancel_order b oid = (false, b) ∧ amend_order b oid np nq ts = (false, b)) ∧
    (∀ nid, lookupA b.order_lookup oid = some nid →
      (cancel_order b oid).1 = true ∧
      cancel_order (cancel_order b oid).2 oid = (false, (cancel_order b oid).2)) := by
  constructor
  · intro h
    exact ⟨cancel_order_not_found b oid h, amend_order_not_found b oid np nq ts h⟩
  · intro nid h
    obtain ⟨nd, hnd, _⟩ := hwf.idxLive (oid, nid) (mem_of_lookupA_some _ _ _ h)
    dsimp only at hnd
    have hidx2 : lookupA (cancel_order b oid).2.order_lookup oid = none := by
      cases hbe : nd.order.is_buy with
      | true =>
        rw [cancel_order_found_buy b oid nid nd h hnd hbe]
        exact lookupA_eraseA_self _ _ hwf.idxKeysNodup
      | false =>
        rw [cancel_order_found_sell b oid nid nd h hnd hbe]
        exact lookupA_eraseA_self _ _ hwf.idxKeysNodup
    refine ⟨?_, cancel_order_not_found _ _ hidx2⟩
    cases hbe : nd.order.is_buy with
    | true => rw [cancel_order_found_buy b oid nid nd h hnd hbe]
    | false => rw [cancel_order_found_sell b oid nid nd h hnd hbe]

/-- C3 witness: the not-found and double-cancel behaviour at concrete
inputs (unknown id 5 on `exBook1`, double cancel of the resting id 1). -/
theorem C3_not_found_witness :
    ((lookupA exBook1.order_lookup 5 = none →
      cancel_order exBook1 5 = (false, exBook1) ∧
      amend_order exBook1 5 7 9 11 = (false, exBook1)) ∧
    (∀ nid, lookupA exBook1.order_lookup 5 = some nid →
      (cancel_order exBook1 5).1 = true ∧
      cancel_order (cancel_order exBook1 5).2 5 = (false, (cancel_order exBook1 5).2))) ∧
    lookupA exBook1.order_lookup 5 = none ∧
    ((lookupA exBook1.order_lookup 1 = none →
      cancel_order exBook1 1 = (false, exBook1) ∧
      amend_order exBook1 1 7 9 11 = (false, exBook1)) ∧
    (∀ nid, lookupA exBook1.order_lookup 1 = some nid →
      (cancel_order exBook1 1).1 = true ∧
      cancel_order (cancel_order exBook1 1).2 1 = (false, (cancel_order exBook1 1).2))) ∧
    lookupA exBook1.order_lookup 1 = some 0 :=
  ⟨C3_not_found exBook1 5 7 9 11 exBook1_reachable.wf,
   by norm_num [exBook1, add_order, allocate, emptyBook, insertA, lookupA],
   C3_not_found exBook1 1 7 9 11 exBook1_reachable.wf,
   by norm_num [exBook1, add_order, allocate, emptyBook, insertA, lookupA]⟩

theorem add_order_idx (b : OrderBook) (o : Order) :
    (add_order b o).order_lookup = insertA b.order_lookup o.order_id (allocate b).1 := by
  cases hbuy : o.is_buy with
  | true => rw [add_order_buy b o hbuy]; simp [allocate_idx]
  | false => rw [add_order_sell b o hbuy]; simp [allocate_idx]

theorem add_order_nodes (b : OrderBook) (o : Order) :
    (add_order b o).nodes = insertA b.nodes (allocate b).1 ⟨o⟩ := by
  cases hbuy : o.is_buy with
  | true => rw [add_order_buy b o hbuy]; simp [allocate_nodes]
  | false => rw [add_order_sell b o hbuy]; simp [allocate_nodes]

/-- C7: in every reachable state the bid side map is strictly descending
by price, the ask side map strictly ascending, and no two levels of one
side share a price. -/
theorem C7_sorted (b : OrderBook) (h : Reachable b) :
    b.bid_levels.Pairwise (fun x y => y.1 < x.1) ∧
    b.ask_levels.Pairwise (fun x y => x.1 < y.1) ∧
    (b.bid_levels.map Prod.fst).Nodup ∧
    (b.ask_levels.map Prod.fst).Nodup := by
  have hwf := h.wf
  refine ⟨?_, ?_, nodup_keys_of_pairwise bidLt bidLt_irrefl _ hwf.bidWF.1,
    nodup_keys_of_pairwise askLt askLt_irrefl _ hwf.askWF.1⟩
  · exact hwf.bidWF.1.imp fun hxy => by simpa [bidLt] using hxy
  · exact hwf.askWF.1.imp fun hxy => by simpa [askLt] using hxy

/-- C7 witness: the ordering invariant at the concrete reachable book
`exBook1`. -/
theorem C7_sorted_witness :
    exBook1.bid_levels.Pairwise (fun x y => y.1 < x.1) ∧
    exBook1.ask_levels.Pairwise (fun x y => x.1 < y.1) ∧
    (exBook1.bid_levels.map Prod.fst).Nodup ∧
    (exBook1.ask_levels.map Prod.fst).Nodup :=
  C7_sorted exBook1 exBook1_reachable

/-- C10: a price-changing amend of a resting identifier bumps the added
and cancelled counters by one each (it runs as an internal cancel plus
add) in addition to the amended counter; a quantity-only amend bumps only
the amended counter. -/
theorem C10_amend_counters (b : OrderBook) (oid nid : Nat) (nd : OrderNode)
    (np : Price) (nq ts : Nat)
    (hidx : lookupA b.order_lookup oid = some nid)
    (hnd : lookupA b.nodes nid = some nd) :
    (|nd.order.price - np| > amendTol →
      (amend_order b oid np nq ts).2.total_orders = b.total_orders + 1 ∧
      (amend_order b oid np nq ts).2.total_cancels = b.total_cancels + 1 ∧
      (amend_order b oid np nq ts).2.total_amends = b.total_amends + 1) ∧
    (¬ |nd.order.price - np| > amendTol →
      (amend_order b oid np nq ts).2.total_orders = b.total_orders ∧
      (amend_order b oid np nq ts).2.total_cancels = b.total_cancels ∧
      (amend_order b oid np nq ts).2.total_amends = b.total_amends + 1) := by
  constructor
  · intro htol
    rw [amend_order_price_change b oid nid nd np nq ts hidx hnd htol]
    have hc := cancel_order_counters b oid nid nd hidx hnd
    have ha := add_order_counters (cancel_order b oid).2
      { nd.order with price := np, quantity := nq, timestamp_ns := ts }
    dsimp only
    exact ⟨by rw [ha.1, hc.1], by rw [ha.2.1, hc.2.1], by rw [ha.2.2, hc.2.2]⟩
  · intro htol
    cases hbe : nd.order.is_buy with
    | true =>
      rw [amend_order_qty_buy b oid nid nd np nq ts hidx hnd htol hbe]
      exact ⟨rfl, rfl, rfl⟩
    | false =>
      rw [amend_order_qty_sell b oid nid nd np nq ts hidx hnd htol hbe]
      exact ⟨rfl, rfl, rfl⟩

/-- C10 witness: counter movement on the concrete book `exBook1` for a
price-changing amend (100 → 50) and a quantity-only amend (price kept at
100) of the resting id 1. -/
theorem C10_amend_counters_witness :
    ((|(⟨⟨1, true, 100, 5, 7⟩⟩ : OrderNode).order.price - (50:Price)| > amendTol →
      (amend_order exBook1 1 50 9 11).2.total_orders = exBook1.total_orders + 1 ∧
      (amend_order exBook1 1 50 9 11).2.total_cancels = exBook1.total_cancels + 1 ∧
      (amend_order exBook1 1 50 9 11).2.total_amends = exBook1.total_amends + 1) ∧
    (¬ |(⟨⟨1, true, 100, 5, 7⟩⟩ : OrderNode).order.price - (50:Price)| > amendTol →
      (amend_order exBook1 1 50 9 11).2.total_orders = exBook1.total_orders ∧
      (amend_order exBook1 1 50 9 11).2.total_cancels = exBook1.total_cancels ∧
      (amend_order exBook1 1 50 9 11).2.total_amends = exBook1.total_amends + 1)) ∧
    ((|(⟨⟨1, true, 100, 5, 7⟩⟩ : OrderNode).order.price - (100:Price)| > amendTol →
      (amend_order exBook1 1 100 9 11).2.total_orders = exBook1.total_orders + 1 ∧
      (amend_order exBook1 1 100 9 11).2.total_cancels = exBook1.total_cancels + 1 ∧
      (amend_order exBook1 1 100 9 11).2.total_amends = exBook1.total_amends + 1) ∧
    (¬ |(⟨⟨1, true, 100, 5, 7⟩⟩ : OrderNode).order.price - (100:Price)| > amendTol →
      (amend_order exBook1 1 100 9 11).2.total_orders = exBook1.total_orders ∧
      (amend_order exBook1 1 100 9 11).2.total_cancels = exBook1.total_cancels ∧
      (amend_order exBook1 1 100 9 11).2.total_amends = exBook1.total_amends + 1)) :=
  ⟨C10_amend_counters exBook1 1 0 ⟨⟨1, true, 100, 5, 7⟩⟩ 50 9 11
      (by norm_num [exBook1, add_order, allocate, emptyBook, insertA, lookupA])
      (by norm_num [exBook1, add_order, allocate, emptyBook, insertA, lookupA]),
   C10_amend_counters exBook1 1 0 ⟨⟨1, true, 100, 5, 7⟩⟩ 100 9 11
      (by norm_num [exBook1, add_order, allocate, emptyBook, insertA, lookupA])
      (by norm_num [exBook1, add_order, allocate, emptyBook, insertA, lookupA])⟩

/-- C9: `add_order` with an identifier that is already resting succeeds,
silently overwrites the Order Index entry so it names the new record, and
orphans the previous record: the old record stays in the node store and in
its level's FIFO queue, its quantity is still counted in that level's u64
aggregate, and no index entry reaches it any more. -/
theorem C9_duplicate_add (b : OrderBook) (o : Order) (nid0 : Nat)
    (nd0 : OrderNode) (hwf : WF b)
    (hidx : lookupA b.order_lookup o.order_id = some nid0)
    (hnd0 : lookupA b.nodes nid0 = some nd0)
    (hq : o.quantity < u64Mod) :
    ∃ nid1, nid1 ≠ nid0 ∧
      lookupA (add_order b o).order_lookup o.order_id = some nid1 ∧
      lookupA (add_order b o).nodes nid1 = some ⟨o⟩ ∧
      lookupA (add_order b o).nodes nid0 = some nd0 ∧
      nid0 ∈ queueAt (add_order b o) nd0.order.is_buy nd0.order.price ∧
      (∀ k, lookupA (add_order b o).order_lookup k ≠ some nid0) ∧
      aggOf (sideOf (add_order b o) nd0.order.is_buy) nd0.order.price =
        ((queueAt (add_order b o) nd0.order.is_buy nd0.order.price).map
          (qtyOf (add_order b o).nodes)).sum % u64Mod := by
  have hdead : lookupA b.nodes (allocate b).1 = none := allocate_not_live b hwf
  have hne : (allocate b).1 ≠ nid0 := by
    rintro rfl
    rw [hdead] at hnd0
    exact Option.noConfusion hnd0
  have hwf2 := WF_add_order b o hwf hq
  have hnodes0 : lookupA (add_order b o).nodes nid0 = some nd0 := by
    rw [add_order_nodes]
    rw [lookupA_insertA_ne _ _ _ _ (Ne.symm hne)]
    exact hnd0
  obtain ⟨L, hfindL, hmemL⟩ := hwf2.nodesHome (nid0, nd0)
    (mem_of_lookupA_some _ _ _ hnodes0)
  dsimp only at hfindL hmemL
  have hqueue : queueAt (add_order b o) nd0.order.is_buy nd0.order.price =
      L.orders := by
    unfold queueAt sideOf queueOf
    rw [hfindL]
  refine ⟨(allocate b).1, hne, ?_, ?_, hnodes0, ?_, ?_, ?_⟩
  · rw [add_order_idx]
    exact lookupA_insertA_self _ _ _
  · rw [add_order_nodes]
    exact lookupA_insertA_self _ _ _
  · rw [hqueue]
    exact hmemL
  · intro k hk
    rw [add_order_idx] at hk
    by_cases hko : k = o.order_id
    · subst hko
      rw [lookupA_insertA_self] at hk
      exact hne (Option.some.inj hk)
    · rw [lookupA_insertA_ne _ _ _ _ hko] at hk
      have h1 : (k, nid0) ∈ b.order_lookup := mem_of_lookupA_some _ _ _ hk
      have h2 : (o.order_id, nid0) ∈ b.order_lookup :=
        mem_of_lookupA_some _ _ _ hidx
      have := nodup_vals_inj _ hwf.idxValsNodup h1 h2 rfl
      exact hko (congrArg Prod.fst this)
  · rw [hqueue]
    have haggL : aggOf (sideOf (add_order b o) nd0.order.is_buy)
        nd0.order.price = L.total_quantity := by
      unfold aggOf sideOf
      rw [hfindL]
    rw [haggL]
    cases hbe : nd0.order.is_buy with
    | true =>
      rw [hbe] at hfindL
      rw [if_pos rfl] at hfindL
      have hLmem := mem_of_findL_some _ _ _ hfindL
      exact (hwf2.bidWF.2 _ hLmem).2.2.1
    | false =>
      rw [hbe] at hfindL
      rw [if_neg (by simp)] at hfindL
      have hLmem := mem_of_findL_some _ _ _ hfindL
      exact (hwf2.askWF.2 _ hLmem).2.2.1

theorem keys_update_qty (side : Side) (nd : OrderNode) (nq : Nat) :
    ((update_quantity_in_place side nd nq).1).map Prod.fst = side.map Prod.fst := by
  cases hF : findL side nd.order.price with
  | none => simp [update_quantity_in_place, hF]
  | some L =>
    rw [update_qty_fst side nd nq L hF]
    exact keys_replaceL _ _ _

/-- C5 (counterexample): on the reachable book `exOvf` the bid level 1 has
wrapped aggregate 0; a quantity-only amend of the resting order id 1 (old
quantity 2^63) to quantity 1 leaves an aggregate of 2^63 + 1, which is not
the old aggregate plus the quantity delta (0 + 1 - 2^63): the aggregate
moves by the delta only modulo 2^64. -/
theorem C5_counterexample :
    Reachable exOvf ∧
    lookupA exOvf.order_lookup 1 = some 0 ∧
    lookupA exOvf.nodes 0 = some ⟨⟨1, true, 1, 2 ^ 63, 0⟩⟩ ∧
    ¬ |(1:Price) - 1| > amendTol ∧
    (amend_order exOvf 1 1 1 99).1 = true ∧
    aggOf exOvf.bid_levels 1 = 0 ∧
    aggOf (amend_order exOvf 1 1 1 99).2.bid_levels 1 = 2 ^ 63 + 1 ∧
    (aggOf (amend_order exOvf 1 1 1 99).2.bid_levels 1 : ℤ) ≠
      (aggOf exOvf.bid_levels 1 : ℤ) + 1 - 2 ^ 63 := by
  refine ⟨exOvf_reachable, ?_, ?_, ?_, ?_, ?_, ?_, ?_⟩ <;>
    norm_num [exOvf, add_order, allocate, emptyBook, add_to_side, findL,
      insertSorted, insertA, lookupA, amend_order, amendTol,
      update_quantity_in_place, replaceL, setA, aggOf, queueOf, qtyOf,
      u64add, u64sub, u64Mod]

/-- C5 (amended): a within-tolerance amend of a resting identifier updates
only that order's quantity in place: the call returns true, every FIFO
queue (hence the order's queue position) is unchanged, the level sets of
both sides are unchanged, the index is untouched, the stored record keeps
everything but its quantity, and the level's u64 aggregate moves by
exactly (new_quantity - old_quantity) modulo 2^64. -/
theorem C5_qty_amend (b : OrderBook) (oid nid : Nat) (nd : OrderNode)
    (np : Price) (nq ts : Nat) (hwf : WF b)
    (hidx : lookupA b.order_lookup oid = some nid)
    (hnd : lookupA b.nodes nid = some nd)
    (htol : ¬ |nd.order.price - np| > amendTol) :
    (amend_order b oid np nq ts).1 = true ∧
    (∀ isBuy p, queueAt (amend_order b oid np nq ts).2 isBuy p =
      queueAt b isBuy p) ∧
    (amend_order b oid np nq ts).2.bid_levels.map Prod.fst =
      b.bid_levels.map Prod.fst ∧
    (amend_order b oid np nq ts).2.ask_levels.map Prod.fst =
      b.ask_levels.map Prod.fst ∧
    lookupA (amend_order b oid np nq ts).2.nodes nid =
      some ⟨{ nd.order with quantity := nq }⟩ ∧
    (amend_order b oid np nq ts).2.order_lookup = b.order_lookup ∧
    Int.ModEq (u64Mod : ℤ)
      (aggOf (sideOf (amend_order b oid np nq ts).2 nd.order.is_buy)
        nd.order.price)
      ((aggOf (sideOf b nd.order.is_buy) nd.order.price : ℤ) + nq -
        nd.order.quantity) := by
  obtain ⟨L, hfind, hmem⟩ := hwf.nodesHome (nid, nd) (mem_of_lookupA_some _ _ _ hnd)
  dsimp only at hfind hmem
  cases hbe : nd.order.is_buy with
  | true =>
    rw [hbe, if_pos rfl] at hfind
    rw [amend_order_qty_buy b oid nid nd np nq ts hidx hnd htol hbe]
    rw [update_qty_snd b.bid_levels nd nq L hfind]
    refine ⟨rfl, ?_, ?_, rfl, ?_, rfl, ?_⟩
    · intro isBuy p
      cases isBuy with
      | true => simp [queueAt, sideOf, queueOf_update_qty]
      | false => simp [queueAt, sideOf]
    · exact keys_update_qty b.bid_levels nd nq
    · exact lookupA_setA_self _ _ _ (by rw [hnd]; simp)
    · simp only [sideOf, if_true]
      unfold aggOf
      rw [findL_update_qty_self b.bid_levels nd nq L hfind, hfind]
      exact u64_qty_update_modeq L.total_quantity nd.order.quantity nq
  | false =>
    rw [hbe, if_neg (by simp)] at hfind
    rw [amend_order_qty_sell b oid nid nd np nq ts hidx hnd htol hbe]
    rw [update_qty_snd b.ask_levels nd nq L hfind]
    refine ⟨rfl, ?_, rfl, ?_, ?_, rfl, ?_⟩
    · intro isBuy p
      cases isBuy with
      | true => simp [queueAt, sideOf]
      | false => simp [queueAt, sideOf, queueOf_update_qty]
    · exact keys_update_qty b.ask_levels nd nq
    · exact lookupA_setA_self _ _ _ (by rw [hnd]; simp)
    · simp only [sideOf]
      rw [if_neg (by simp), if_neg (by simp)]
      unfold aggOf
      rw [findL_update_qty_self b.ask_levels nd nq L hfind, hfind]
      exact u64_qty_update_modeq L.total_quantity nd.order.quantity nq

theorem add_order_sides_buy (b : OrderBook) (o : Order) (h : o.is_buy = true) :
    (add_order b o).bid_levels =
      add_to_side bidLt b.bid_levels (allocate b).1 ⟨o⟩ ∧
    (add_order b o).ask_levels = b.ask_levels := by
  rw [add_order_buy b o h]
  exact ⟨by simp [allocate_bid], by simp [allocate_ask]⟩

theorem add_order_sides_sell (b : OrderBook) (o : Order) (h : o.is_buy = false) :
    (add_order b o).ask_levels =
      add_to_side askLt b.ask_levels (allocate b).1 ⟨o⟩ ∧
    (add_order b o).bid_levels = b.bid_levels := by
  rw [add_order_sell b o h]
  exact ⟨by simp [allocate_ask], by simp [allocate_bid]⟩

/-- C8: adding an order with a non-resting identifier and immediately
cancelling it restores the level sets, the per-level aggregates and
queues, and the Order Index exactly (operation counters and the node pool
high-water mark are outside this equality). -/
theorem C8_add_cancel_roundtrip (b : OrderBook) (o : Order) (hwf : WF b)
    (habsent : lookupA b.order_lookup o.order_id = none)
    (hq : o.quantity < u64Mod) :
    (cancel_order (add_order b o) o.order_id).2.bid_levels = b.bid_levels ∧
    (cancel_order (add_order b o) o.order_id).2.ask_levels = b.ask_levels ∧
    (cancel_order (add_order b o) o.order_id).2.order_lookup = b.order_lookup ∧
    (cancel_order (add_order b o) o.order_id).2.nodes = b.nodes := by
  have hdead : lookupA b.nodes (allocate b).1 = none := allocate_not_live b hwf
  have hidx2 : lookupA (add_order b o).order_lookup o.order_id =
      some (allocate b).1 := by
    rw [add_order_idx]
    exact lookupA_insertA_self _ _ _
  have hnd2 : lookupA (add_order b o).nodes (allocate b).1 = some ⟨o⟩ := by
    rw [add_order_nodes]
    exact lookupA_insertA_self _ _ _
  have hidxkeys : o.order_id ∉ b.order_lookup.map Prod.fst :=
    not_mem_keys_of_lookupA_none _ _ habsent
  have hnodekeys : (allocate b).1 ∉ b.nodes.map Prod.fst :=
    not_mem_keys_of_lookupA_none _ _ hdead
  cases hbuy : o.is_buy with
  | true =>
    rw [cancel_order_found_buy (add_order b o) o.order_id (allocate b).1 ⟨o⟩
      hidx2 hnd2 (by simpa using hbuy)]
    obtain ⟨hbid, hask⟩ := add_order_sides_buy b o hbuy
    refine ⟨?_, ?_, ?_, ?_⟩
    · show remove_from_side (add_order b o).bid_levels (allocate b).1 ⟨o⟩ =
        b.bid_levels
      rw [hbid]
      exact add_remove_roundtrip b.nodes true bidLt bidLt_irrefl b.bid_levels
        (allocate b).1 ⟨o⟩ hwf.bidWF
        (not_queued_of_not_live _ _ _ _ _ hwf.bidWF hdead) hq
    · exact hask
    · show eraseA (add_order b o).order_lookup o.order_id = b.order_lookup
      rw [add_order_idx]
      exact eraseA_insertA_fresh _ _ _ hidxkeys
    · show eraseA (add_order b o).nodes (allocate b).1 = b.nodes
      rw [add_order_nodes]
      exact eraseA_insertA_fresh _ _ _ hnodekeys
  | false =>
    rw [cancel_order_found_sell (add_order b o) o.order_id (allocate b).1 ⟨o⟩
      hidx2 hnd2 (by simpa using hbuy)]
    obtain ⟨hask, hbid⟩ := add_order_sides_sell b o hbuy
    refine ⟨?_, ?_, ?_, ?_⟩
    · exact hbid
    · show remove_from_side (add_order b o).ask_levels (allocate b).1 ⟨o⟩ =
        b.ask_levels
      rw [hask]
      exact add_remove_roundtrip b.nodes false askLt askLt_irrefl b.ask_levels
        (allocate b).1 ⟨o⟩ hwf.askWF
        (not_queued_of_not_live _ _ _ _ _ hwf.askWF hdead) hq
    · show eraseA (add_order b o).order_lookup o.order_id = b.order_lookup
      rw [add_order_idx]
      exact eraseA_insertA_fresh _ _ _ hidxkeys
    · show eraseA (add_order b o).nodes (allocate b).1 = b.nodes
      rw [add_order_nodes]
      exact eraseA_insertA_fresh _ _ _ hnodekeys

/-- C4: a price-changing amend of a resting identifier is executed as
cancel-then-add and returns true: the old record leaves its level's queue
(the level disappearing exactly when it held no other order), and a new
record with the same identifier, the new price and quantity, and the fresh
clock reading as arrival timestamp is appended at the tail of the
destination level's queue — even when that level already existed — which
resets its time priority. -/
theorem C4_price_amend (b : OrderBook) (oid nid : Nat) (nd : OrderNode)
    (np : Price) (nq ts : Nat) (hwf : WF b)
    (hidx : lookupA b.order_lookup oid = some nid)
    (hnd : lookupA b.nodes nid = some nd)
    (htol : |nd.order.price - np| > amendTol) :
    (amend_order b oid np nq ts).1 = true ∧
    ∃ nid2,
      lookupA (amend_order b oid np nq ts).2.order_lookup oid = some nid2 ∧
      lookupA (amend_order b oid np nq ts).2.nodes nid2 =
        some ⟨{ order_id := oid, is_buy := nd.order.is_buy, price := np,
                quantity := nq, timestamp_ns := ts }⟩ ∧
      queueAt (amend_order b oid np nq ts).2 nd.order.is_buy np =
        queueAt b nd.order.is_buy np ++ [nid2] ∧
      queueAt (amend_order b oid np nq ts).2 nd.order.is_buy nd.order.price =
        (queueAt b nd.order.is_buy nd.order.price).erase nid ∧
      (findL (sideOf (amend_order b oid np nq ts).2 nd.order.is_buy)
          nd.order.price = none ↔
        (queueAt b nd.order.is_buy nd.order.price).erase nid = []) := by
  have hid : nd.order.order_id = oid := by
    obtain ⟨ndl, hndl, hidl⟩ := hwf.idxLive (oid, nid)
      (mem_of_lookupA_some _ _ _ hidx)
    dsimp only at hndl hidl
    rw [hnd] at hndl
    injection hndl with hndl2
    rw [hndl2]
    exact hidl
  have hpne : nd.order.price ≠ np := ne_of_tol htol
  have hr := amend_order_price_change b oid nid nd np nq ts hidx hnd htol
  have hfst : (amend_order b oid np nq ts).1 = true := by rw [hr]
  have hQ : ∀ isBuy p, queueAt (amend_order b oid np nq ts).2 isBuy p =
      queueAt (add_order (cancel_order b oid).2
        { nd.order with price := np, quantity := nq, timestamp_ns := ts })
        isBuy p := by
    intro isBuy p
    rw [hr]
    rfl
  have hIdx : (amend_order b oid np nq ts).2.order_lookup =
      (add_order (cancel_order b oid).2
        { nd.order with price := np, quantity := nq, timestamp_ns := ts }).order_lookup := by
    rw [hr]
  have hNodes : (amend_order b oid np nq ts).2.nodes =
      (add_order (cancel_order b oid).2
        { nd.order with price := np, quantity := nq, timestamp_ns := ts }).nodes := by
    rw [hr]
  have hSide : sideOf (amend_order b oid np nq ts).2 nd.order.is_buy =
      sideOf (add_order (cancel_order b oid).2
        { nd.order with price := np, quantity := nq, timestamp_ns := ts })
        nd.order.is_buy := by
    rw [hr]
    rfl
  obtain ⟨L, hfind, hmem⟩ := hwf.nodesHome (nid, nd) (mem_of_lookupA_some _ _ _ hnd)
  dsimp only at hfind hmem
  have hqb : queueAt b nd.order.is_buy nd.order.price = L.orders := by
    cases hbe : nd.order.is_buy with
    | true =>
      rw [hbe, if_pos rfl] at hfind
      simp [queueAt, sideOf, queueOf, hfind]
    | false =>
      rw [hbe, if_neg (by simp)] at hfind
      simp [queueAt, sideOf, queueOf, hfind]
  refine ⟨hfst, (allocate (cancel_order b oid).2).1, ?_, ?_, ?_, ?_, ?_⟩
  · rw [hIdx, add_order_idx]
    dsimp only
    rw [hid]
    exact lookupA_insertA_self _ _ _
  · rw [hNodes, add_order_nodes]
    dsimp only
    rw [hid]
    exact lookupA_insertA_self _ _ _
  · rw [hQ, queueAt_add_order]
    rw [if_pos ⟨rfl, rfl⟩]
    rw [queueAt_cancel_found b oid nid nd hwf hidx hnd]
    rw [if_neg fun hc => hpne hc.2.symm]
  · rw [hQ, queueAt_add_order]
    rw [if_neg fun hc => hpne hc.2]
    rw [queueAt_cancel_found b oid nid nd hwf hidx hnd]
    rw [if_pos ⟨rfl, rfl⟩]
  · rw [hSide, hqb]
    cases hbe : nd.order.is_buy with
    | true =>
      rw [hbe, if_pos rfl] at hfind
      have hsides := add_order_sides_buy (cancel_order b oid).2
        { nd.order with price := np, quantity := nq, timestamp_ns := ts }
        (by simpa using hbe)
      have hside1 : sideOf (add_order (cancel_order b oid).2
          { nd.order with price := np, quantity := nq, timestamp_ns := ts })
          true = add_to_side bidLt (cancel_order b oid).2.bid_levels
            (allocate (cancel_order b oid).2).1
            ⟨{ nd.order with price := np, quantity := nq, timestamp_ns := ts }⟩ := by
        simp [sideOf, hsides.1]
      rw [hside1]
      rw [findL_add_to_side_ne _ _ _ _ _ hpne]
      have hb1bid : (cancel_order b oid).2.bid_levels =
          remove_from_side b.bid_levels nid nd := by
        rw [cancel_order_found_buy b oid nid nd hidx hnd hbe]
      rw [hb1bid]
      have hkeysnod : (b.bid_levels.map Prod.fst).Nodup :=
        nodup_keys_of_pairwise bidLt bidLt_irrefl _ hwf.bidWF.1
      rw [remove_from_side_self b.bid_levels nid nd L hfind hkeysnod]
      by_cases hz : L.orders.erase nid = []
      · simp [hz]
      · simp [hz]
    | false =>
      rw [hbe, if_neg (by simp)] at hfind
      have hsides := add_order_sides_sell (cancel_order b oid).2
        { nd.order with price := np, quantity := nq, timestamp_ns := ts }
        (by simpa using hbe)
      have hside1 : sideOf (add_order (cancel_order b oid).2
          { nd.order with price := np, quantity := nq, timestamp_ns := ts })
          false = add_to_side askLt (cancel_order b oid).2.ask_levels
            (allocate (cancel_order b oid).2).1
            ⟨{ nd.order with price := np, quantity := nq, timestamp_ns := ts }⟩ := by
        simp [sideOf, hsides.1]
      rw [hside1]
      rw [findL_add_to_side_ne _ _ _ _ _ hpne]
      have hb1ask : (cancel_order b oid).2.ask_levels =
          remove_from_side b.ask_levels nid nd := by
        rw [cancel_order_found_sell b oid nid nd hidx hnd hbe]
      rw [hb1ask]
      have hkeysnod : (b.ask_levels.map Prod.fst).Nodup :=
        nodup_keys_of_pairwise askLt askLt_irrefl _ hwf.askWF.1
      rw [remove_from_side_self b.ask_levels nid nd L hfind hkeysnod]
      by_cases hz : L.orders.erase nid = []
      · simp [hz]
      · simp [hz]

theorem mem_queueAt_queuedIds (b : OrderBook) (isBuy : Bool) (p : Price)
    (m : Nat) (hm : m ∈ queueAt b isBuy p) : m ∈ queuedIds (sideOf b isBuy) := by
  unfold queueAt queueOf at hm
  cases hF : findL (sideOf b isBuy) p with
  | none => rw [hF] at hm; simp at hm
  | some L =>
    rw [hF] at hm
    exact mem_queuedIds.mpr ⟨_, mem_of_findL_some _ _ _ hF, hm⟩

theorem not_in_queueAt_of_dead (b : OrderBook) (hwf : WF b) (nid : Nat)
    (hdead : lookupA b.nodes nid = none) (isBuy : Bool) (p : Price) :
    nid ∉ queueAt b isBuy p := by
  intro hc
  have h2 := mem_queueAt_queuedIds b isBuy p nid hc
  cases isBuy with
  | true =>
    exact not_queued_of_not_live _ _ _ _ _ hwf.bidWF hdead
      (by simpa [sideOf] using h2)
  | false =>
    exact not_queued_of_not_live _ _ _ _ _ hwf.askWF hdead
      (by simpa [sideOf] using h2)

/-- C6: no operation ever reorders a FIFO queue, and every insertion
appends at the queue tail: after any single well-typed API call, the queue
at any side and price is an order-preserving sublist of the old queue
followed by records that were not previously queued there — so of two
orders resting at the same price, the one added (or re-added by a
price-changing amend) earlier stays in front. -/
theorem C6_fifo (b : OrderBook) (hwf : WF b) (op : BookOp) (hop : opWF op)
    (isBuy : Bool) (p : Price) :
    ∃ kept app, queueAt (applyOp b op) isBuy p = kept ++ app ∧
      kept.Sublist (queueAt b isBuy p) ∧ ∀ n ∈ app, n ∉ queueAt b isBuy p := by
  cases op with
  | add o =>
    have h := queueAt_add_order b o isBuy p
    by_cases hc : isBuy = o.is_buy ∧ p = o.price
    · rw [if_pos hc] at h
      refine ⟨queueAt b isBuy p, [(allocate b).1], h, List.Sublist.refl _, ?_⟩
      intro n hn
      simp only [List.mem_singleton] at hn
      subst hn
      exact not_in_queueAt_of_dead b hwf _ (allocate_not_live b hwf) isBuy p
    · rw [if_neg hc] at h
      exact ⟨queueAt b isBuy p, [], by simpa using h, List.Sublist.refl _, by simp⟩
  | cancel oid =>
    cases hidx : lookupA b.order_lookup oid with
    | none =>
      have h : queueAt (applyOp b (BookOp.cancel oid)) isBuy p =
          queueAt b isBuy p := by
        show queueAt (cancel_order b oid).2 isBuy p = _
        rw [cancel_order_not_found b oid hidx]
      exact ⟨queueAt b isBuy p, [], by simpa using h, List.Sublist.refl _, by simp⟩
    | some nid =>
      obtain ⟨nd, hnd, _⟩ := hwf.idxLive (oid, nid) (mem_of_lookupA_some _ _ _ hidx)
      dsimp only at hnd
      have h := queueAt_cancel_found b oid nid nd hwf hidx hnd isBuy p
      by_cases hc : isBuy = nd.order.is_buy ∧ p = nd.order.price
      · rw [if_pos hc] at h
        exact ⟨(queueAt b isBuy p).erase nid, [], by simpa using h,
          List.erase_sublist _ _, by simp⟩
      · rw [if_neg hc] at h
        exact ⟨queueAt b isBuy p, [], by simpa using h, List.Sublist.refl _, by simp⟩
  | amend oid np nq2 ts =>
    cases hidx : lookupA b.order_lookup oid with
    | none =>
      have h : queueAt (applyOp b (BookOp.amend oid np nq2 ts)) isBuy p =
          queueAt b isBuy p := by
        show queueAt (amend_order b oid np nq2 ts).2 isBuy p = _
        rw [amend_order_not_found b oid np nq2 ts hidx]
      exact ⟨queueAt b isBuy p, [], by simpa using h, List.Sublist.refl _, by simp⟩
    | some nid =>
      obtain ⟨nd, hnd, _⟩ := hwf.idxLive (oid, nid) (mem_of_lookupA_some _ _ _ hidx)
      dsimp only at hnd
      by_cases htol : |nd.order.price - np| > amendTol
      · have hr := amend_order_price_change b oid nid nd np nq2 ts hidx hnd htol
        have hQ : queueAt (applyOp b (BookOp.amend oid np nq2 ts)) isBuy p =
            queueAt (add_order (cancel_order b oid).2
              { nd.order with price := np, quantity := nq2, timestamp_ns := ts })
              isBuy p := by
          show queueAt (amend_order b oid np nq2 ts).2 isBuy p = _
          rw [hr]
          rfl
        have hwf1 : WF (cancel_order b oid).2 := WF_cancel_order b oid hwf
        have hadd := queueAt_add_order (cancel_order b oid).2
          { nd.order with price := np, quantity := nq2, timestamp_ns := ts }
          isBuy p
        have hcan := queueAt_cancel_found b oid nid nd hwf hidx hnd isBuy p
        have hpne : nd.order.price ≠ np := ne_of_tol htol
        dsimp only at hadd
        by_cases hcA : isBuy = nd.order.is_buy ∧ p = np
        · rw [if_pos hcA] at hadd
          have hp2 : p = np := hcA.2
          have hcB : ¬ (isBuy = nd.order.is_buy ∧ p = nd.order.price) := by
            intro hcB
            exact hpne (hcB.2.symm.trans hp2)
          rw [if_neg hcB] at hcan
          refine ⟨queueAt b isBuy p,
            [(allocate (cancel_order b oid).2).1], ?_, List.Sublist.refl _, ?_⟩
          · rw [hQ, hadd, hcan]
          · intro n hn
            simp only [List.mem_singleton] at hn
            subst hn
            have hnot1 := not_in_queueAt_of_dead _ hwf1 _
              (allocate_not_live _ hwf1) isBuy p
            rw [hcan] at hnot1
            exact hnot1
        · rw [if_neg hcA] at hadd
          by_cases hcB : isBuy = nd.order.is_buy ∧ p = nd.order.price
          · rw [if_pos hcB] at hcan
            refine ⟨(queueAt b isBuy p).erase nid, [], ?_,
              List.erase_sublist _ _, by simp⟩
            rw [hQ, hadd, hcan]
            simp
          · rw [if_neg hcB] at hcan
            refine ⟨queueAt b isBuy p, [], ?_, List.Sublist.refl _, by simp⟩
            rw [hQ, hadd, hcan]
            simp
      · cases hbe : nd.order.is_buy with
        | true =>
          have h : queueAt (applyOp b (BookOp.amend oid np nq2 ts)) isBuy p =
              queueAt b isBuy p := by
            show queueAt (amend_order b oid np nq2 ts).2 isBuy p = _
            rw [amend_order_qty_buy b oid nid nd np nq2 ts hidx hnd htol hbe]
            cases isBuy with
            | true => simp [queueAt, sideOf, queueOf_update_qty]
            | false => simp [queueAt, sideOf]
          exact ⟨queueAt b isBuy p, [], by simpa using h,
            List.Sublist.refl _, by simp⟩
        | false =>
          have h : queueAt (applyOp b (BookOp.amend oid np nq2 ts)) isBuy p =
              queueAt b isBuy p := by
            show queueAt (amend_order b oid np nq2 ts).2 isBuy p = _
            rw [amend_order_qty_sell b oid nid nd np nq2 ts hidx hnd htol hbe]
            cases isBuy with
            | true => simp [queueAt, sideOf]
            | false => simp [queueAt, sideOf, queueOf_update_qty]
          exact ⟨queueAt b isBuy p, [], by simpa using h,
            List.Sublist.refl _, by simp⟩

theorem C4_price_amend_witness :
    (amend_order exBook1 1 200 3 9).1 = true ∧
    ∃ nid2,
      lookupA (amend_order exBook1 1 200 3 9).2.order_lookup 1 = some nid2 ∧
      lookupA (amend_order exBook1 1 200 3 9).2.nodes nid2 =
        some ⟨⟨1, true, 200, 3, 9⟩⟩ ∧
      queueAt (amend_order exBook1 1 200 3 9).2 true 200 =
        queueAt exBook1 true 200 ++ [nid2] ∧
      queueAt (amend_order exBook1 1 200 3 9).2 true 100 =
        (queueAt exBook1 true 100).erase 0 ∧
      (findL (sideOf (amend_order exBook1 1 200 3 9).2 true) 100 = none ↔
        (queueAt exBook1 true 100).erase 0 = []) :=
  C4_price_amend exBook1 1 0 ⟨⟨1, true, 100, 5, 7⟩⟩ 200 3 9
    (Reachable.wf exBook1_reachable)
    (by norm_num [exBook1, add_order, allocate, emptyBook, insertA, lookupA])
    (by norm_num [exBook1, add_order, allocate, emptyBook, insertA, lookupA])
    (by norm_num [amendTol])

theorem C5_qty_amend_witness :
    (amend_order exBook1 1 100 3 9).1 = true ∧
    (∀ isBuy p, queueAt (amend_order exBook1 1 100 3 9).2 isBuy p =
      queueAt exBook1 isBuy p) ∧
    (amend_order exBook1 1 100 3 9).2.bid_levels.map Prod.fst =
      exBook1.bid_levels.map Prod.fst ∧
    (amend_order exBook1 1 100 3 9).2.ask_levels.map Prod.fst =
      exBook1.ask_levels.map Prod.fst ∧
    lookupA (amend_order exBook1 1 100 3 9).2.nodes 0 =
      some ⟨⟨1, true, 100, 3, 7⟩⟩ ∧
    (amend_order exBook1 1 100 3 9).2.order_lookup = exBook1.order_lookup ∧
    Int.ModEq (u64Mod : ℤ)
      (aggOf (sideOf (amend_order exBook1 1 100 3 9).2 true) 100)
      ((aggOf (sideOf exBook1 true) 100 : ℤ) + 3 - 5) :=
  C5_qty_amend exBook1 1 0 ⟨⟨1, true, 100, 5, 7⟩⟩ 100 3 9
    (Reachable.wf exBook1_reachable)
    (by norm_num [exBook1, add_order, allocate, emptyBook, insertA, lookupA])
    (by norm_num [exBook1, add_order, allocate, emptyBook, insertA, lookupA])
    (by norm_num [amendTol])

theorem C6_fifo_witness :
    ∃ kept app,
      queueAt (applyOp exBook1 (BookOp.add ⟨2, true, 100, 3, 8⟩)) true 100 =
        kept ++ app ∧
      kept.Sublist (queueAt exBook1 true 100) ∧
      ∀ n ∈ app, n ∉ queueAt exBook1 true 100 :=
  C6_fifo exBook1 (Reachable.wf exBook1_reachable)
    (BookOp.add ⟨2, true, 100, 3, 8⟩) (by norm_num [opWF, u64Mod]) true 100

theorem C8_add_cancel_roundtrip_witness :
    (cancel_order (add_order emptyBook ⟨1, true, 100, 5, 7⟩) 1).2.bid_levels =
      emptyBook.bid_levels ∧
    (cancel_order (add_order emptyBook ⟨1, true, 100, 5, 7⟩) 1).2.ask_levels =
      emptyBook.ask_levels ∧
    (cancel_order (add_order emptyBook ⟨1, true, 100, 5, 7⟩) 1).2.order_lookup =
      emptyBook.order_lookup ∧
    (cancel_order (add_order emptyBook ⟨1, true, 100, 5, 7⟩) 1).2.nodes =
      emptyBook.nodes :=
  C8_add_cancel_roundtrip emptyBook ⟨1, true, 100, 5, 7⟩ WF_emptyBook
    (by norm_num [emptyBook, lookupA]) (by norm_num [u64Mod])

theorem C9_duplicate_add_witness :
    ∃ nid1, nid1 ≠ 0 ∧
      lookupA (add_order exBook1 ⟨1, true, 50, 4, 8⟩).order_lookup 1 =
        some nid1 ∧
      lookupA (add_order exBook1 ⟨1, true, 50, 4, 8⟩).nodes nid1 =
        some ⟨⟨1, true, 50, 4, 8⟩⟩ ∧
      lookupA (add_order exBook1 ⟨1, true, 50, 4, 8⟩).nodes 0 =
        some ⟨⟨1, true, 100, 5, 7⟩⟩ ∧
      0 ∈ queueAt (add_order exBook1 ⟨1, true, 50, 4, 8⟩) true 100 ∧
      (∀ k, lookupA (add_order exBook1 ⟨1, true, 50, 4, 8⟩).order_lookup k ≠
        some 0) ∧
      aggOf (sideOf (add_order exBook1 ⟨1, true, 50, 4, 8⟩) true) 100 =
        ((queueAt (add_order exBook1 ⟨1, true, 50, 4, 8⟩) true 100).map
          (qtyOf (add_order exBook1 ⟨1, true, 50, 4, 8⟩).nodes)).sum % u64Mod :=
  C9_duplicate_add exBook1 ⟨1, true, 50, 4, 8⟩ 0 ⟨⟨1, true, 100, 5, 7⟩⟩
    (Reachable.wf exBook1_reachable)
    (by norm_num [exBook1, add_order, allocate, emptyBook, insertA, lookupA])
    (by norm_num [exBook1, add_order, allocate, emptyBook, insertA, lookupA])
    (by norm_num [u64Mod])
